import Mathlib

/-! The options reader of the MQTT client (`options_reader.go`)

A shallow embedding of `ClientOptionsReader` and its accessors.  The accessors
hand out Go references (slices, pointers), so the embedding carries an explicit
heap: objects live in typed address spaces, a pointer is an address, a slice is
a header over a backing array, and every accessor is a function from the heap
to either a panic or a result paired with the heap it leaves behind
(`Except Panic (α × Heap)`).
-/

namespace Mqtt

/-- Addresses of heap objects; each object kind has its own address space. -/
abbrev Addr := Nat

/-- A Go pointer: `none` is the nil pointer. -/
abbrev Ptr := Option Addr

/-- The ways an accessor can stop without a result. `nilDereference` is Go's
run-time panic on a nil pointer, `indexOutOfRange` the panic of an index
expression, `invalidAddress` marks a read through an address that was never
allocated (no Go program can produce one). -/
inductive Panic where
  | nilDereference
  | indexOutOfRange
  | invalidAddress
  deriving DecidableEq, Repr

/-- The struct `net/url.URL` of the Go standard library. `User` points to an
immutable `Userinfo`. -/
structure URL where
  Scheme : String
  Opaque : String
  User : Ptr
  Host : String
  Path : String
  RawPath : String
  OmitHost : Bool
  ForceQuery : Bool
  RawQuery : String
  Fragment : String
  RawFragment : String
  deriving DecidableEq, Repr

/-- A Go slice header: the backing array (`none` for the nil slice), the
position of the slice's first element in it, the length and the capacity. -/
structure Slice where
  array : Ptr
  off : Nat
  len : Nat
  cap : Nat
  deriving DecidableEq, Repr

/-- The nil slice. -/
def Slice.nil : Slice := ⟨none, 0, 0, 0⟩

/-- The dynamic value held by a non-nil interface value. A typed nil pointer
(`pointer ty none`) is such a value. -/
inductive Dyn where
  | int (i : Int)
  | str (s : String)
  | bool (b : Bool)
  | pointer (ty : String) (p : Ptr)
  deriving DecidableEq, Repr

/-- A value of Go type `interface{}`: the nil interface or a dynamic value. -/
inductive Iface where
  | nil
  | val (d : Dyn)
  deriving DecidableEq, Repr

/-- A Go `map[string]interface{}`: `none` is the nil map, otherwise the
entries, a key being bound to the first entry that carries it. -/
abbrev UserParamsMap := Option (List (String × Iface))

/-- Modelled from the spec: the declaration of the struct `ClientOptions`
(the configuration store) is not among the sources. The fields are the ones
the accessors of `options_reader.go` read, each with the type the accessor
returns: `[]*url.URL` and `[]byte` are slice headers, `*tls.Config`,
`http.Header` and `*WebsocketOptions` are references to objects the reader
never looks into, `time.Duration` and `int64` are integers, `byte` and `uint`
are naturals. -/
structure ClientOptions where
  Servers : Slice
  ClientID : String
  Username : String
  Password : String
  CleanSession : Bool
  Order : Bool
  WillEnabled : Bool
  WillTopic : String
  WillPayload : Slice
  WillQos : Nat
  WillRetained : Bool
  ProtocolVersion : Nat
  TLSConfig : Ptr
  KeepAlive : Int
  PingTimeout : Int
  ConnectTimeout : Int
  MaxReconnectInterval : Int
  AutoReconnect : Bool
  ConnectRetryInterval : Int
  ConnectRetry : Bool
  WriteTimeout : Int
  MessageChannelDepth : Nat
  ResumeSubs : Bool
  HTTPHeaders : Ptr
  WebsocketOptions : Ptr
  UserParams : UserParamsMap
  deriving DecidableEq, Repr

/-- The heap: the `ClientOptions` objects, the `url.URL` objects, the backing
arrays of `[]*url.URL` slices and the backing arrays of `[]byte` slices. The
address of an object is its position; allocation appends. -/
structure Heap where
  stores : List ClientOptions
  urls : List URL
  urlArrays : List (List Ptr)
  byteArrays : List (List Nat)
  deriving DecidableEq, Repr

/-- The struct `ClientOptionsReader`: a pointer to the store. -/
structure ClientOptionsReader where
  options : Ptr
  deriving DecidableEq, Repr

/-- The function `NewOptionsReader`. -/
def NewOptionsReader (o : Ptr) : ClientOptionsReader :=
  { options := o }

/-! ## Heap operations of the Go run time -/

/-- The read `*p` of a `*ClientOptions`, as in `r.options.F`. -/
def Heap.loadStore (h : Heap) (p : Ptr) : Except Panic ClientOptions :=
  match p with
  | none => .error .nilDereference
  | some a =>
    match h.stores[a]? with
    | none => .error .invalidAddress
    | some o => .ok o

/-- The read `*u` of a `*url.URL`. -/
def Heap.loadURL (h : Heap) (u : Ptr) : Except Panic URL :=
  match u with
  | none => .error .nilDereference
  | some a =>
    match h.urls[a]? with
    | none => .error .invalidAddress
    | some v => .ok v

/-- The allocation of a `url.URL` variable that escapes (`&nu`): a new object
holding `v`; returns its address. -/
def Heap.newURL (h : Heap) (v : URL) : Addr × Heap :=
  (h.urls.length, { h with urls := h.urls ++ [v] })

/-- The call `make([]*url.URL, n)`: a new backing array of `n` nil pointers. -/
def Heap.makeURLSlice (h : Heap) (n : Nat) : Slice × Heap :=
  (⟨some h.urlArrays.length, 0, n, n⟩,
   { h with urlArrays := h.urlArrays ++ [List.replicate n none] })

/-- The index expression `s[i]` on a `[]*url.URL`. -/
def Heap.indexURLSlice (h : Heap) (s : Slice) (i : Nat) : Except Panic Ptr :=
  if i < s.len then
    match s.array with
    | none => .error .invalidAddress
    | some a =>
      match h.urlArrays[a]? with
      | none => .error .invalidAddress
      | some arr =>
        match arr[s.off + i]? with
        | none => .error .invalidAddress
        | some u => .ok u
  else .error .indexOutOfRange

/-- The assignment `s[i] = u` on a `[]*url.URL`. -/
def Heap.setURLSlice (h : Heap) (s : Slice) (i : Nat) (u : Ptr) : Except Panic Heap :=
  if i < s.len then
    match s.array with
    | none => .error .invalidAddress
    | some a =>
      match h.urlArrays[a]? with
      | none => .error .invalidAddress
      | some arr =>
        if s.off + i < arr.length then
          .ok { h with urlArrays := h.urlArrays.set a (arr.set (s.off + i) u) }
        else .error .invalidAddress
  else .error .indexOutOfRange

/-- The index expression `s[i]` on a `[]byte`. -/
def Heap.indexByteSlice (h : Heap) (s : Slice) (i : Nat) : Except Panic Nat :=
  if i < s.len then
    match s.array with
    | none => .error .invalidAddress
    | some a =>
      match h.byteArrays[a]? with
      | none => .error .invalidAddress
      | some arr =>
        match arr[s.off + i]? with
        | none => .error .invalidAddress
        | some b => .ok b
  else .error .indexOutOfRange

/-- The assignment `s[i] = b` on a `[]byte`. -/
def Heap.setByteSlice (h : Heap) (s : Slice) (i : Nat) (b : Nat) : Except Panic Heap :=
  if i < s.len then
    match s.array with
    | none => .error .invalidAddress
    | some a =>
      match h.byteArrays[a]? with
      | none => .error .invalidAddress
      | some arr =>
        if s.off + i < arr.length then
          .ok { h with byteArrays := h.byteArrays.set a (arr.set (s.off + i) b) }
        else .error .invalidAddress
  else .error .indexOutOfRange

/-- The assignment `*p = v` (or of any field of `*p`) on a `*url.URL`. -/
def Heap.storeURL (h : Heap) (p : Ptr) (v : URL) : Except Panic Heap :=
  match p with
  | none => .error .nilDereference
  | some a =>
    if a < h.urls.length then .ok { h with urls := h.urls.set a v }
    else .error .invalidAddress

/-- The assignment `*p = o` (or of any field of `*p`) on the store. -/
def Heap.storeStore (h : Heap) (p : Ptr) (o : ClientOptions) : Except Panic Heap :=
  match p with
  | none => .error .nilDereference
  | some a =>
    if a < h.stores.length then .ok { h with stores := h.stores.set a o }
    else .error .invalidAddress

/-! ## The accessors -/

/-- The loop `for i, u := range src { nu := *u; s[i] = &nu }` of `Servers`,
from index `i` with `k` iterations left. The range expression `src` was
evaluated once; each iteration reads its element from the backing array. -/
def serversLoop (src s : Slice) : Nat → Nat → Heap → Except Panic Heap
  | 0, _, h => .ok h
  | k + 1, i, h => do
    let u ← h.indexURLSlice src i
    let nu ← h.loadURL u
    let (p, h1) := h.newURL nu
    let h2 ← h1.setURLSlice s i (some p)
    serversLoop src s k (i + 1) h2

/-- The method `Servers`. -/
def Servers (r : ClientOptionsReader) (h : Heap) : Except Panic (Slice × Heap) := do
  let o ← h.loadStore r.options
  let (s, h1) := h.makeURLSlice o.Servers.len
  let o1 ← h1.loadStore r.options
  let src := o1.Servers
  let h2 ← serversLoop src s src.len 0 h1
  return (s, h2)

/-- The value of an `int64` expression whose mathematical value is `x`:
two's-complement wrap-around into `[-2^63, 2^63)`. -/
def wrapInt64 (x : Int) : Int :=
  (x + 2 ^ 63) % 2 ^ 64 - 2 ^ 63

/-- The constant `time.Second` of the Go standard library, in nanoseconds. -/
def Second : Int := 1000000000

/-- The comma-ok index expression `m[key]` on a `map[string]interface{}`:
on a nil map or a missing key the zero value (the nil interface) and
`false`. -/
def mapIndex (m : UserParamsMap) (key : String) : Iface × Bool :=
  match m with
  | none => (Iface.nil, false)
  | some entries =>
    match entries.lookup key with
    | none => (Iface.nil, false)
    | some v => (v, true)

/-- The method `ResumeSubs`. -/
def ResumeSubs (r : ClientOptionsReader) (h : Heap) : Except Panic (Bool × Heap) := do
  let o ← h.loadStore r.options
  let s := o.ResumeSubs
  return (s, h)

/-- The method `ClientID`. -/
def ClientID (r : ClientOptionsReader) (h : Heap) : Except Panic (String × Heap) := do
  let o ← h.loadStore r.options
  let s := o.ClientID
  return (s, h)

/-- The method `Username`. -/
def Username (r : ClientOptionsReader) (h : Heap) : Except Panic (String × Heap) := do
  let o ← h.loadStore r.options
  let s := o.Username
  return (s, h)

/-- The method `Password`. -/
def Password (r : ClientOptionsReader) (h : Heap) : Except Panic (String × Heap) := do
  let o ← h.loadStore r.options
  let s := o.Password
  return (s, h)

/-- The method `CleanSession`. -/
def CleanSession (r : ClientOptionsReader) (h : Heap) : Except Panic (Bool × Heap) := do
  let o ← h.loadStore r.options
  let s := o.CleanSession
  return (s, h)

/-- The method `Order`. -/
def Order (r : ClientOptionsReader) (h : Heap) : Except Panic (Bool × Heap) := do
  let o ← h.loadStore r.options
  let s := o.Order
  return (s, h)

/-- The method `WillEnabled`. -/
def WillEnabled (r : ClientOptionsReader) (h : Heap) : Except Panic (Bool × Heap) := do
  let o ← h.loadStore r.options
  let s := o.WillEnabled
  return (s, h)

/-- The method `WillTopic`. -/
def WillTopic (r : ClientOptionsReader) (h : Heap) : Except Panic (String × Heap) := do
  let o ← h.loadStore r.options
  let s := o.WillTopic
  return (s, h)

/-- The method `WillPayload`. -/
def WillPayload (r : ClientOptionsReader) (h : Heap) : Except Panic (Slice × Heap) := do
  let o ← h.loadStore r.options
  let s := o.WillPayload
  return (s, h)

/-- The method `WillQos`. -/
def WillQos (r : ClientOptionsReader) (h : Heap) : Except Panic (Nat × Heap) := do
  let o ← h.loadStore r.options
  let s := o.WillQos
  return (s, h)

/-- The method `WillRetained`. -/
def WillRetained (r : ClientOptionsReader) (h : Heap) : Except Panic (Bool × Heap) := do
  let o ← h.loadStore r.options
  let s := o.WillRetained
  return (s, h)

/-- The method `ProtocolVersion`. -/
def ProtocolVersion (r : ClientOptionsReader) (h : Heap) : Except Panic (Nat × Heap) := do
  let o ← h.loadStore r.options
  let s := o.ProtocolVersion
  return (s, h)

/-- The method `TLSConfig`. -/
def TLSConfig (r : ClientOptionsReader) (h : Heap) : Except Panic (Ptr × Heap) := do
  let o ← h.loadStore r.options
  let s := o.TLSConfig
  return (s, h)

/-- The method `KeepAlive`: the product is taken in `int64`. -/
def KeepAlive (r : ClientOptionsReader) (h : Heap) : Except Panic (Int × Heap) := do
  let o ← h.loadStore r.options
  let s := wrapInt64 (o.KeepAlive * Second)
  return (s, h)

/-- The method `PingTimeout`. -/
def PingTimeout (r : ClientOptionsReader) (h : Heap) : Except Panic (Int × Heap) := do
  let o ← h.loadStore r.options
  let s := o.PingTimeout
  return (s, h)

/-- The method `ConnectTimeout`. -/
def ConnectTimeout (r : ClientOptionsReader) (h : Heap) : Except Panic (Int × Heap) := do
  let o ← h.loadStore r.options
  let s := o.ConnectTimeout
  return (s, h)

/-- The method `MaxReconnectInterval`. -/
def MaxReconnectInterval (r : ClientOptionsReader) (h : Heap) : Except Panic (Int × Heap) := do
  let o ← h.loadStore r.options
  let s := o.MaxReconnectInterval
  return (s, h)

/-- The method `AutoReconnect`. -/
def AutoReconnect (r : ClientOptionsReader) (h : Heap) : Except Panic (Bool × Heap) := do
  let o ← h.loadStore r.options
  let s := o.AutoReconnect
  return (s, h)

/-- The method `ConnectRetryInterval`. -/
def ConnectRetryInterval (r : ClientOptionsReader) (h : Heap) : Except Panic (Int × Heap) := do
  let o ← h.loadStore r.options
  let s := o.ConnectRetryInterval
  return (s, h)

/-- The method `ConnectRetry`. -/
def ConnectRetry (r : ClientOptionsReader) (h : Heap) : Except Panic (Bool × Heap) := do
  let o ← h.loadStore r.options
  let s := o.ConnectRetry
  return (s, h)

/-- The method `WriteTimeout`. -/
def WriteTimeout (r : ClientOptionsReader) (h : Heap) : Except Panic (Int × Heap) := do
  let o ← h.loadStore r.options
  let s := o.WriteTimeout
  return (s, h)

/-- The method `MessageChannelDepth`. -/
def MessageChannelDepth (r : ClientOptionsReader) (h : Heap) : Except Panic (Nat × Heap) := do
  let o ← h.loadStore r.options
  let s := o.MessageChannelDepth
  return (s, h)

/-- The method `HTTPHeaders`. -/
def HTTPHeaders (r : ClientOptionsReader) (heap : Heap) : Except Panic (Ptr × Heap) := do
  let o ← heap.loadStore r.options
  let h := o.HTTPHeaders
  return (h, heap)

/-- The method `WebsocketOptions`. -/
def WebsocketOptions (r : ClientOptionsReader) (h : Heap) : Except Panic (Ptr × Heap) := do
  let o ← h.loadStore r.options
  let s := o.WebsocketOptions
  return (s, h)

/-- The method `UserParamsGet`. -/
def UserParamsGet (r : ClientOptionsReader) (key : String) (h : Heap) :
    Except Panic (Iface × Heap) := do
  let o ← h.loadStore r.options
  let (params, ok) := mapIndex o.UserParams key
  if ok then
    return (params, h)
  return (Iface.nil, h)

/-! ## Reading values through references -/

/-- The elements of a `[]*url.URL` as the heap holds them, `none` when the
header does not lie inside an allocated backing array. The nil slice has no
elements. -/
def Heap.urlSliceElems (h : Heap) (s : Slice) : Option (List Ptr) :=
  match s.array with
  | none => if s.len = 0 then some [] else none
  | some a =>
    match h.urlArrays[a]? with
    | none => none
    | some arr =>
      if s.off + s.len ≤ arr.length then some ((arr.drop s.off).take s.len) else none

/-- The bytes of a `[]byte` as the heap holds them. -/
def Heap.byteSliceElems (h : Heap) (s : Slice) : Option (List Nat) :=
  match s.array with
  | none => if s.len = 0 then some [] else none
  | some a =>
    match h.byteArrays[a]? with
    | none => none
    | some arr =>
      if s.off + s.len ≤ arr.length then some ((arr.drop s.off).take s.len) else none

/-- The `url.URL` values a `[]*url.URL` leads to, element by element; an
element that is nil or not allocated reads as `none`. -/
def Heap.urlSliceValues (h : Heap) (s : Slice) : Option (List (Option URL)) :=
  (h.urlSliceElems s).map (fun ps => ps.map (fun u => u.bind (fun a => h.urls[a]?)))

/-- The endpoint list of the store at `p`, by value. -/
def Heap.endpoints (h : Heap) (p : Addr) : Option (List (Option URL)) :=
  (h.stores[p]?).bind (fun o => h.urlSliceValues o.Servers)

/-! ## Heaps that keep every object of an earlier heap -/

/-- Every object of `h` is in `h'` at the same address with the same
contents: the stores and the byte arrays are the same, the `url.URL` objects
and the pointer arrays of `h` are unchanged (`h'` may hold more of them). -/
structure Heap.Extends (h h' : Heap) : Prop where
  stores : h'.stores = h.stores
  byteArrays : h'.byteArrays = h.byteArrays
  urls : ∀ (q : Addr) (v : URL), h.urls[q]? = some v → h'.urls[q]? = some v
  urlArrays : ∀ (a : Addr) (arr : List Ptr),
    h.urlArrays[a]? = some arr → h'.urlArrays[a]? = some arr

/-- The heap `Servers` leaves behind: the heap it started from, followed by
the copies `vs` of the endpoints and by one new array that holds the addresses
of the copies in order. -/
def Heap.afterServers (h : Heap) (n : Nat) (vs : List URL) : Heap :=
  ⟨h.stores, h.urls ++ vs,
   h.urlArrays ++ [(List.range n).map (fun j => some (h.urls.length + j))], h.byteArrays⟩

/-! ## What a caller can do with a result of `Servers` -/

/-- A caller's mutation of a value `s` returned by `Servers`: replacing a
slot (`s[i] = u`), or assigning to the element a slot points to (`*s[i] = v`;
an assignment to one field of `s[i]` is the case where `v` is the element with
that field changed). -/
inductive ServersMutation where
  | slot (i : Nat) (u : Ptr)
  | element (i : Nat) (v : URL)
  deriving DecidableEq, Repr

/-- Carrying out a mutation of the returned slice `s` on the heap. -/
def ServersMutation.apply (m : ServersMutation) (s : Slice) (h : Heap) : Except Panic Heap :=
  match m with
  | .slot i u => h.setURLSlice s i u
  | .element i v => do
    let q ← h.indexURLSlice s i
    h.storeURL q v

/-! ## Sample data -/

/-- The endpoint `tcp://a.example:1883`. -/
def brokerA : URL := ⟨"tcp", "", none, "a.example:1883", "", "", false, false, "", "", ""⟩

/-- The endpoint `ssl://b.example:8883`. -/
def brokerB : URL := ⟨"ssl", "", none, "b.example:8883", "", "", false, false, "", "", ""⟩

/-- The endpoint `ws://c.example:80/mqtt`. -/
def brokerC : URL := ⟨"ws", "", none, "c.example:80", "/mqtt", "", false, false, "", "", ""⟩

/-- A store with three endpoints, a three-byte will payload, a keep-alive of
30 seconds and the user parameters `{"a": 1}`. -/
def sampleOptions : ClientOptions :=
  { Servers := ⟨some 0, 0, 3, 3⟩, ClientID := "client-1", Username := "user",
    Password := "secret", CleanSession := true, Order := true, WillEnabled := true,
    WillTopic := "will/topic", WillPayload := ⟨some 0, 0, 3, 3⟩, WillQos := 1,
    WillRetained := false, ProtocolVersion := 4, TLSConfig := some 7, KeepAlive := 30,
    PingTimeout := 10000000000, ConnectTimeout := 30000000000,
    MaxReconnectInterval := 600000000000, AutoReconnect := true,
    ConnectRetryInterval := 30000000000, ConnectRetry := false, WriteTimeout := 0,
    MessageChannelDepth := 100, ResumeSubs := false, HTTPHeaders := some 8,
    WebsocketOptions := some 9, UserParams := some [("a", Iface.val (Dyn.int 1))] }

/-- A heap holding `sampleOptions` at address 0 with its three endpoints and
its payload bytes `1, 2, 3`. -/
def sampleHeap : Heap :=
  ⟨[sampleOptions], [brokerA, brokerB, brokerC], [[some 0, some 1, some 2]], [[1, 2, 3]]⟩

/-- The sample store with a keep-alive count of 9223372037 seconds. -/
def overflowHeap : Heap :=
  { sampleHeap with stores := [{ sampleOptions with KeepAlive := 9223372037 }] }

/-- The sample store with the user parameters `{"a": nil}`. -/
def nilParamHeap : Heap :=
  { sampleHeap with stores := [{ sampleOptions with UserParams := some [("a", Iface.nil)] }] }

/-- The sample store with the user parameters `{"a": (*T)(nil)}`, a typed nil
pointer. -/
def typedNilParamHeap : Heap :=
  { sampleHeap with
    stores := [{ sampleOptions with
      UserParams := some [("a", Iface.val (Dyn.pointer "*T" none))] }] }

/-! ## All accessors at once -/

/-- The accessors of `ClientOptionsReader`; `UserParamsGet` with its key. -/
inductive Accessor where
  | Servers
  | ResumeSubs
  | ClientID
  | Username
  | Password
  | CleanSession
  | Order
  | WillEnabled
  | WillTopic
  | WillPayload
  | WillQos
  | WillRetained
  | ProtocolVersion
  | TLSConfig
  | KeepAlive
  | PingTimeout
  | ConnectTimeout
  | MaxReconnectInterval
  | AutoReconnect
  | ConnectRetryInterval
  | ConnectRetry
  | WriteTimeout
  | MessageChannelDepth
  | HTTPHeaders
  | WebsocketOptions
  | UserParamsGet (key : String)
  deriving DecidableEq, Repr

/-- A value returned by an accessor: `urls` is a `[]*url.URL`, `bytes` a
`[]byte`, `ref` one of the references `*tls.Config`, `http.Header`,
`*WebsocketOptions`. -/
inductive Value where
  | bool (b : Bool)
  | string (s : String)
  | nat (n : Nat)
  | int (i : Int)
  | ref (p : Ptr)
  | bytes (s : Slice)
  | urls (s : Slice)
  | iface (v : Iface)
  deriving DecidableEq, Repr

/-- What a caller reads from a value: a scalar or a reference as it is, a
slice by the contents the heap holds for it. -/
inductive View where
  | bool (b : Bool)
  | string (s : String)
  | nat (n : Nat)
  | int (i : Int)
  | ref (p : Ptr)
  | bytes (bs : Option (List Nat))
  | urls (vs : Option (List (Option URL)))
  | iface (v : Iface)
  deriving DecidableEq, Repr

/-- The view of a value on a heap. -/
def Value.view (h : Heap) : Value → View
  | .bool b => View.bool b
  | .string s => View.string s
  | .nat n => View.nat n
  | .int i => View.int i
  | .ref p => View.ref p
  | .bytes s => View.bytes (h.byteSliceElems s)
  | .urls s => View.urls (h.urlSliceValues s)
  | .iface v => View.iface v

/-- The outcome of a method, its result tagged with its type. -/
def returned {α : Type} (tag : α → Value) (x : Except Panic (α × Heap)) :
    Except Panic (Value × Heap) :=
  match x with
  | .error e => .error e
  | .ok (v, h) => .ok (tag v, h)

/-- The call of accessor `a` on the reader `r`. -/
def Accessor.call (a : Accessor) (r : ClientOptionsReader) (h : Heap) :
    Except Panic (Value × Heap) :=
  match a with
  | .Servers => returned Value.urls (Mqtt.Servers r h)
  | .ResumeSubs => returned Value.bool (Mqtt.ResumeSubs r h)
  | .ClientID => returned Value.string (Mqtt.ClientID r h)
  | .Username => returned Value.string (Mqtt.Username r h)
  | .Password => returned Value.string (Mqtt.Password r h)
  | .CleanSession => returned Value.bool (Mqtt.CleanSession r h)
  | .Order => returned Value.bool (Mqtt.Order r h)
  | .WillEnabled => returned Value.bool (Mqtt.WillEnabled r h)
  | .WillTopic => returned Value.string (Mqtt.WillTopic r h)
  | .WillPayload => returned Value.bytes (Mqtt.WillPayload r h)
  | .WillQos => returned Value.nat (Mqtt.WillQos r h)
  | .WillRetained => returned Value.bool (Mqtt.WillRetained r h)
  | .ProtocolVersion => returned Value.nat (Mqtt.ProtocolVersion r h)
  | .TLSConfig => returned Value.ref (Mqtt.TLSConfig r h)
  | .KeepAlive => returned Value.int (Mqtt.KeepAlive r h)
  | .PingTimeout => returned Value.int (Mqtt.PingTimeout r h)
  | .ConnectTimeout => returned Value.int (Mqtt.ConnectTimeout r h)
  | .MaxReconnectInterval => returned Value.int (Mqtt.MaxReconnectInterval r h)
  | .AutoReconnect => returned Value.bool (Mqtt.AutoReconnect r h)
  | .ConnectRetryInterval => returned Value.int (Mqtt.ConnectRetryInterval r h)
  | .ConnectRetry => returned Value.bool (Mqtt.ConnectRetry r h)
  | .WriteTimeout => returned Value.int (Mqtt.WriteTimeout r h)
  | .MessageChannelDepth => returned Value.nat (Mqtt.MessageChannelDepth r h)
  | .HTTPHeaders => returned Value.ref (Mqtt.HTTPHeaders r h)
  | .WebsocketOptions => returned Value.ref (Mqtt.WebsocketOptions r h)
  | .UserParamsGet key => returned Value.iface (Mqtt.UserParamsGet r key h)

/-- The value of an attribute as the state of the store `o` on the heap `h`
determines it: the field, the endpoint values, the payload bytes, the
keep-alive count times one second in `int64`, the binding of the key. -/
def Accessor.ofStore (a : Accessor) (h : Heap) (o : ClientOptions) : View :=
  match a with
  | .Servers => View.urls (h.urlSliceValues o.Servers)
  | .ResumeSubs => View.bool o.ResumeSubs
  | .ClientID => View.string o.ClientID
  | .Username => View.string o.Username
  | .Password => View.string o.Password
  | .CleanSession => View.bool o.CleanSession
  | .Order => View.bool o.Order
  | .WillEnabled => View.bool o.WillEnabled
  | .WillTopic => View.string o.WillTopic
  | .WillPayload => View.bytes (h.byteSliceElems o.WillPayload)
  | .WillQos => View.nat o.WillQos
  | .WillRetained => View.bool o.WillRetained
  | .ProtocolVersion => View.nat o.ProtocolVersion
  | .TLSConfig => View.ref o.TLSConfig
  | .KeepAlive => View.int (wrapInt64 (o.KeepAlive * Second))
  | .PingTimeout => View.int o.PingTimeout
  | .ConnectTimeout => View.int o.ConnectTimeout
  | .MaxReconnectInterval => View.int o.MaxReconnectInterval
  | .AutoReconnect => View.bool o.AutoReconnect
  | .ConnectRetryInterval => View.int o.ConnectRetryInterval
  | .ConnectRetry => View.bool o.ConnectRetry
  | .WriteTimeout => View.int o.WriteTimeout
  | .MessageChannelDepth => View.nat o.MessageChannelDepth
  | .HTTPHeaders => View.ref o.HTTPHeaders
  | .WebsocketOptions => View.ref o.WebsocketOptions
  | .UserParamsGet key => View.iface (mapIndex o.UserParams key).1

/-- The sample store with a nil pointer in the second slot of its endpoint
list. -/
def nilEndpointHeap : Heap :=
  { sampleHeap with urlArrays := [[some 0, none, some 2]] }

/-- The sample store after its owner changed the keep-alive count to 60 and
dropped the first endpoint. -/
def updatedOptions : ClientOptions :=
  { sampleOptions with KeepAlive := 60, Servers := ⟨some 0, 1, 2, 2⟩ }

/-- The sample store with the nil slice as its endpoint list. -/
def nilListHeap : Heap :=
  { sampleHeap with stores := [{ sampleOptions with Servers := Slice.nil }] }

/-- The sample store whose endpoint list holds the same pointer in its first
two slots. -/
def duplicateHeap : Heap :=
  { sampleHeap with urlArrays := [[some 0, some 0, some 2]] }

/-! # Theorems -/

/-! ## The effect of `Servers` on the heap -/

theorem loadStore_some (h : Heap) (p : Addr) (o : ClientOptions)
    (hp : h.stores[p]? = some o) : h.loadStore (some p) = .ok o := by
  simp [Heap.loadStore, hp]

theorem take_drop_succ {α : Type} (arr : List α) (m k : Nat) (x : α) (xs : List α)
    (hx : (arr.drop m).take (k + 1) = x :: xs) :
    arr[m]? = some x ∧ (arr.drop (m + 1)).take k = xs := by
  cases hd : arr.drop m with
  | nil => simp [hd] at hx
  | cons y ys =>
    rw [hd, List.take_succ_cons] at hx
    injection hx with h1 h2
    subst h1
    have h3 : arr[m]? = (arr.drop m)[0]? := by simp
    have h4 : arr.drop (m + 1) = ys := by
      have : arr.drop (m + 1) = (arr.drop m).drop 1 := by simp [List.drop_drop, Nat.add_comm]
      rw [this, hd]; rfl
    refine ⟨by rw [h3, hd]; simp, by rw [h4]; exact h2⟩

theorem lt_length_of_getElem? {α : Type} {l : List α} {i : Nat} {x : α}
    (h : l[i]? = some x) : i < l.length := by
  obtain ⟨hlt, _⟩ := List.getElem?_eq_some.mp h
  exact hlt

/-- The loop of `Servers`, started at index `i` on a heap where the first `i`
slots of the new array are filled: it appends one copy per remaining element
and fills the remaining slots with the addresses of the copies. -/
theorem serversLoop_eq (S : List ClientOptions) (B : List (List Nat)) (U : List URL)
    (A : List (List Ptr)) (src : Slice) (a : Addr) (arr : List Ptr) (n : Nat)
    (hsrc : src.array = some a) (hA : A[a]? = some arr) (hlen : n ≤ src.len) :
    ∀ (k i : Nat) (V : List URL) (D : List Ptr) (ps : List Addr) (vs : List URL),
      D.length = i → ps.length = k → i + k = n →
      (arr.drop (src.off + i)).take k = ps.map some →
      ps.map (fun q => U[q]?) = vs.map some →
      serversLoop src ⟨some A.length, 0, n, n⟩ k i
          ⟨S, U ++ V, A ++ [D ++ List.replicate k none], B⟩
        = .ok ⟨S, U ++ V ++ vs,
            A ++ [D ++ (List.range k).map (fun j => some (U.length + V.length + j))], B⟩ := by
  intro k
  induction k with
  | zero =>
    intro i V D ps vs _ hps _ _ hvs
    have : ps = [] := List.length_eq_zero.mp hps
    subst this
    have : vs = [] := by simpa using hvs.symm
    subst this
    simp [serversLoop]
  | succ k ih =>
    intro i V D ps vs hD hps hn harr hvs
    match ps, vs, hps, harr, hvs with
    | q :: ps, v :: vs, hps, harr, hvs =>
      simp only [List.map_cons, List.cons.injEq] at hvs
      obtain ⟨hq, hvs⟩ := hvs
      obtain ⟨helem, hrest⟩ := take_drop_succ arr (src.off + i) k (some q) (ps.map some) harr
      have hqlt : q < U.length := lt_length_of_getElem? hq
      have ha : a < A.length := lt_length_of_getElem? hA
      have hidx : Heap.indexURLSlice ⟨S, U ++ V, A ++ [D ++ List.replicate (k + 1) none], B⟩ src i
          = .ok (some q) := by
        have hi : i < src.len := by omega
        simp [Heap.indexURLSlice, hi, hsrc, List.getElem?_append_left ha, hA, helem]
      have hload : Heap.loadURL ⟨S, U ++ V, A ++ [D ++ List.replicate (k + 1) none], B⟩ (some q)
          = .ok v := by
        simp [Heap.loadURL, List.getElem?_append_left hqlt, hq]
      have hset : Heap.setURLSlice
          ⟨S, U ++ V ++ [v], A ++ [D ++ List.replicate (k + 1) none], B⟩
          ⟨some A.length, 0, n, n⟩ i (some (U.length + V.length))
          = .ok ⟨S, U ++ (V ++ [v]),
              A ++ [(D ++ [some (U.length + V.length)]) ++ List.replicate k none], B⟩ := by
        have hi : i < n := by omega
        simp [Heap.setURLSlice, hi, hD, List.replicate_succ, List.set_append]
      have hstep := ih (i + 1) (V ++ [v]) (D ++ [some (U.length + V.length)]) ps vs
        (by simp [hD]) (by simpa using hps) (by omega) (by simpa [Nat.add_assoc] using hrest) hvs
      simp only [serversLoop, hidx, hload, Heap.newURL, bind, Except.bind, List.length_append,
        hset, hstep]
      simp [List.range_succ_eq_map, Nat.add_assoc, Nat.add_comm 1]
    | [], _, hps, _, _ => simp at hps

/-- On a store whose endpoint list holds the non-nil pointers `ps`, leading
to the values `vs`, `Servers` returns: the result is the header of a new array
of `ps.length` slots and the heap is `afterServers`. -/
theorem Servers_eq (h : Heap) (r : ClientOptionsReader) (p : Addr) (o : ClientOptions)
    (ps : List Addr) (vs : List URL)
    (hr : r.options = some p) (hstore : h.stores[p]? = some o)
    (hsrv : h.urlSliceElems o.Servers = some (ps.map some))
    (hval : ps.map (fun q => h.urls[q]?) = vs.map some) :
    Servers r h = .ok (⟨some h.urlArrays.length, 0, ps.length, ps.length⟩,
      h.afterServers ps.length vs) := by
  have hload : ∀ A : List (List Ptr),
      Heap.loadStore ⟨h.stores, h.urls, A, h.byteArrays⟩ r.options = .ok o := by
    intro A
    rw [hr]
    exact loadStore_some _ p o hstore
  have hload0 : h.loadStore r.options = .ok o := hload h.urlArrays
  cases harr : o.Servers.array with
  | none =>
    simp only [Heap.urlSliceElems, harr] at hsrv
    split at hsrv
    · rename_i hlen
      have hps : ps = [] := by simpa using hsrv.symm
      subst hps
      have hvs : vs = [] := by simpa using hval.symm
      subst hvs
      simp [Servers, hload0, Heap.makeURLSlice, hload, hlen, serversLoop, Heap.afterServers,
        bind, Except.bind, pure, Except.pure]
    · cases hsrv
  | some a =>
    simp only [Heap.urlSliceElems, harr] at hsrv
    cases hA : h.urlArrays[a]? with
    | none => simp [hA] at hsrv
    | some arr =>
      simp only [hA] at hsrv
      split at hsrv
      · rename_i hbound
        have hsrv1 : (arr.drop o.Servers.off).take o.Servers.len = ps.map some := by
          simpa using hsrv
        have hlen : ps.length = o.Servers.len := by
          have := congrArg List.length hsrv1
          simp only [List.length_take, List.length_drop, List.length_map] at this
          omega
        have hloop := serversLoop_eq h.stores h.byteArrays h.urls h.urlArrays o.Servers a arr
          o.Servers.len harr hA (Nat.le_refl _) o.Servers.len 0 [] [] ps vs rfl hlen
          (by omega) (by simpa using hsrv1) hval
        simp only [List.append_nil, List.nil_append, List.length_nil, Nat.add_zero] at hloop
        simp only [Servers, hload0, Heap.makeURLSlice, hload, bind, Except.bind, hloop,
          pure, Except.pure, Heap.afterServers, hlen]
      · cases hsrv

theorem Heap.Extends.refl (h : Heap) : h.Extends h :=
  ⟨rfl, rfl, fun _ _ hq => hq, fun _ _ ha => ha⟩

theorem Heap.Extends.urlSliceElems {h h' : Heap} (he : h.Extends h') (s : Slice)
    (es : List Ptr) (hs : h.urlSliceElems s = some es) : h'.urlSliceElems s = some es := by
  unfold Heap.urlSliceElems at hs ⊢
  cases harr : s.array with
  | none => simpa [harr] using hs
  | some a =>
    simp only [harr] at hs ⊢
    cases hA : h.urlArrays[a]? with
    | none => simp [hA] at hs
    | some arr =>
      rw [he.urlArrays a arr hA]
      simpa [hA] using hs

theorem Heap.Extends.map_urls {h h' : Heap} (he : h.Extends h') :
    ∀ (ps : List Addr) (vs : List URL), ps.map (fun q => h.urls[q]?) = vs.map some →
      ps.map (fun q => h'.urls[q]?) = vs.map some
  | [], vs, hv => by simpa using hv
  | q :: ps, [], hv => by simp at hv
  | q :: ps, v :: vs, hv => by
    simp only [List.map_cons, List.cons.injEq] at hv ⊢
    exact ⟨he.urls q v hv.1, Heap.Extends.map_urls he ps vs hv.2⟩

theorem afterServers_extends (h : Heap) (n : Nat) (vs : List URL) :
    h.Extends (h.afterServers n vs) := by
  refine ⟨rfl, rfl, ?_, ?_⟩
  · intro q v hq
    simp only [Heap.afterServers]
    rw [List.getElem?_append_left (lt_length_of_getElem? hq)]
    exact hq
  · intro a arr ha
    simp only [Heap.afterServers]
    rw [List.getElem?_append_left (lt_length_of_getElem? ha)]
    exact ha

theorem newURL_extends {h0 h : Heap} (he : h0.Extends h) (v : URL) :
    h0.Extends (h.newURL v).2 := by
  refine ⟨he.stores, he.byteArrays, ?_, he.urlArrays⟩
  intro q w hq
  have hq1 := he.urls q w hq
  simp only [Heap.newURL]
  rw [List.getElem?_append_left (lt_length_of_getElem? hq1)]
  exact hq1

theorem makeURLSlice_extends {h0 h : Heap} (he : h0.Extends h) (n : Nat) :
    h0.Extends (h.makeURLSlice n).2 := by
  refine ⟨he.stores, he.byteArrays, he.urls, ?_⟩
  intro a arr ha
  have ha1 := he.urlArrays a arr ha
  simp only [Heap.makeURLSlice]
  rw [List.getElem?_append_left (lt_length_of_getElem? ha1)]
  exact ha1

/-- A write through a slice whose backing array is not an array of `h0`
leaves every object of `h0` as it was. -/
theorem setURLSlice_extends {h0 h h2 : Heap} (he : h0.Extends h) (s : Slice) (d : Addr)
    (hs : s.array = some d) (hd : h0.urlArrays.length ≤ d) (i : Nat) (u : Ptr)
    (hset : h.setURLSlice s i u = .ok h2) : h0.Extends h2 := by
  unfold Heap.setURLSlice at hset
  simp only [hs] at hset
  split at hset
  · cases hA : h.urlArrays[d]? with
    | none => simp [hA] at hset
    | some arr =>
      simp only [hA] at hset
      split at hset
      · injection hset with hset
        subst hset
        refine ⟨he.stores, he.byteArrays, he.urls, ?_⟩
        intro a arr0 ha
        have hlt : a < h0.urlArrays.length := lt_length_of_getElem? ha
        have hne : d ≠ a := Nat.ne_of_gt (Nat.lt_of_lt_of_le hlt hd)
        simp only [List.getElem?_set_ne hne]
        exact he.urlArrays a arr0 ha
      · cases hset
  · cases hset

/-- A write through a pointer that is not the address of an object of `h0`
leaves every object of `h0` as it was. -/
theorem storeURL_extends {h0 h h2 : Heap} (he : h0.Extends h) (q : Addr)
    (hq : h0.urls.length ≤ q) (v : URL) (hst : h.storeURL (some q) v = .ok h2) :
    h0.Extends h2 := by
  unfold Heap.storeURL at hst
  simp only at hst
  split at hst
  · injection hst with hst
    subst hst
    refine ⟨he.stores, he.byteArrays, ?_, he.urlArrays⟩
    intro a w ha
    have hlt : a < h0.urls.length := lt_length_of_getElem? ha
    have hne : q ≠ a := Nat.ne_of_gt (Nat.lt_of_lt_of_le hlt hq)
    simp only [List.getElem?_set_ne hne]
    exact he.urls a w ha
  · cases hst

/-- The loop of `Servers` writes only into its new array and into new
objects. -/
theorem serversLoop_extends (h0 : Heap) (src s : Slice) (d : Addr) (hs : s.array = some d)
    (hd : h0.urlArrays.length ≤ d) :
    ∀ (k i : Nat) (h h' : Heap), h0.Extends h → serversLoop src s k i h = .ok h' →
      h0.Extends h' := by
  intro k
  induction k with
  | zero =>
    intro i h h' he hrun
    simp only [serversLoop] at hrun
    injection hrun with hrun
    subst hrun
    exact he
  | succ k ih =>
    intro i h h' he hrun
    simp only [serversLoop, bind, Except.bind] at hrun
    cases hidx : h.indexURLSlice src i with
    | error e => simp [hidx] at hrun
    | ok u =>
      simp only [hidx] at hrun
      cases hload : h.loadURL u with
      | error e => simp [hload] at hrun
      | ok nu =>
        simp only [hload] at hrun
        cases hset : (h.newURL nu).2.setURLSlice s i (some (h.newURL nu).1) with
        | error e => simp [hset] at hrun
        | ok h2 =>
          simp only [hset] at hrun
          exact ih (i + 1) h2 h' (setURLSlice_extends (newURL_extends he nu) s d hs hd i _ hset)
            hrun

/-- Whenever `Servers` returns, every object of the heap it started from is
as it was. -/
theorem Servers_extends (r : ClientOptionsReader) (h h' : Heap) (s : Slice)
    (hrun : Servers r h = .ok (s, h')) : h.Extends h' := by
  simp only [Servers, bind, Except.bind, pure, Except.pure] at hrun
  cases hl : h.loadStore r.options with
  | error e => simp [hl] at hrun
  | ok o =>
    simp only [hl] at hrun
    cases hl1 : (h.makeURLSlice o.Servers.len).2.loadStore r.options with
    | error e => simp [hl1] at hrun
    | ok o1 =>
      simp only [hl1] at hrun
      cases hloop : serversLoop o1.Servers (h.makeURLSlice o.Servers.len).1 o1.Servers.len 0
          (h.makeURLSlice o.Servers.len).2 with
      | error e => simp [hloop] at hrun
      | ok h2 =>
        simp only [hloop] at hrun
        injection hrun with hrun
        injection hrun with _ hrun
        subst hrun
        exact serversLoop_extends h o1.Servers _ h.urlArrays.length rfl (Nat.le_refl _) _ 0 _ _
          (makeURLSlice_extends (Heap.Extends.refl h) _) hloop

/-! ## Values read through the result of `Servers` -/

theorem afterServers_elems (h : Heap) (n : Nat) (vs : List URL) :
    (h.afterServers n vs).urlSliceElems ⟨some h.urlArrays.length, 0, n, n⟩
      = some ((List.range n).map (fun j => some (h.urls.length + j))) := by
  simp [Heap.urlSliceElems, Heap.afterServers]

theorem range_map_getElem? {α : Type} (vs : List α) :
    (List.range vs.length).map (fun j => vs[j]?) = vs.map some := by
  apply List.ext_getElem?
  intro i
  by_cases hi : i < vs.length
  · simp [List.getElem?_map, List.getElem?_range, hi, List.getElem?_eq_getElem hi]
  · have hge : vs.length ≤ i := Nat.le_of_not_lt hi
    simp [List.getElem?_map, List.getElem?_eq_none, hge]

theorem afterServers_values (h : Heap) (n : Nat) (vs : List URL) (hn : n = vs.length) :
    (h.afterServers n vs).urlSliceValues ⟨some h.urlArrays.length, 0, n, n⟩
      = some (vs.map some) := by
  subst hn
  rw [Heap.urlSliceValues, afterServers_elems]
  simp only [Option.map_some', List.map_map, Option.some.injEq]
  rw [← range_map_getElem? vs]
  apply List.map_congr_left
  intro j _
  simp only [Heap.afterServers, Function.comp, Option.bind]
  rw [List.getElem?_append_right (Nat.le_add_right _ _), Nat.add_sub_cancel_left]

theorem store_values (h : Heap) (o : ClientOptions) (ps : List Addr) (vs : List URL)
    (hsrv : h.urlSliceElems o.Servers = some (ps.map some))
    (hval : ps.map (fun q => h.urls[q]?) = vs.map some) :
    h.urlSliceValues o.Servers = some (vs.map some) := by
  rw [Heap.urlSliceValues, hsrv]
  simp only [Option.map_some', List.map_map, Option.some.injEq]
  rw [← hval]
  apply List.map_congr_left
  intro q _
  simp

theorem length_eq_of_values (h : Heap) (ps : List Addr) (vs : List URL)
    (hval : ps.map (fun q => h.urls[q]?) = vs.map some) : ps.length = vs.length := by
  simpa using congrArg List.length hval

theorem afterServers_index (h : Heap) (n : Nat) (vs : List URL) (i : Nat) (u : Ptr)
    (hidx : (h.afterServers n vs).indexURLSlice ⟨some h.urlArrays.length, 0, n, n⟩ i = .ok u) :
    i < n ∧ u = some (h.urls.length + i) := by
  unfold Heap.indexURLSlice at hidx
  by_cases hi : i < n
  · simp [hi, Heap.afterServers, List.getElem?_map, List.getElem?_range] at hidx
    exact ⟨hi, hidx.symm⟩
  · simp [hi] at hidx

/-- A successful mutation of a result of `Servers` leaves every object of the
heap the call started from as it was. -/
theorem mutation_extends (h h2 : Heap) (n : Nat) (vs : List URL)
    (m : ServersMutation)
    (hm : m.apply ⟨some h.urlArrays.length, 0, n, n⟩ (h.afterServers n vs) = .ok h2) :
    h.Extends h2 := by
  cases m with
  | slot i u =>
    exact setURLSlice_extends (afterServers_extends h n vs) _ h.urlArrays.length rfl
      (Nat.le_refl _) i u hm
  | element i v =>
    simp only [ServersMutation.apply, bind, Except.bind] at hm
    cases hidx : (h.afterServers n vs).indexURLSlice ⟨some h.urlArrays.length, 0, n, n⟩ i with
    | error e => simp [hidx] at hm
    | ok u =>
      simp only [hidx] at hm
      obtain ⟨_, hu⟩ := afterServers_index h n vs i u hidx
      subst hu
      exact storeURL_extends (afterServers_extends h n vs) _ (Nat.le_add_right _ _) v hm

/-- Every in-range mutation of a result of `Servers` can be carried out. -/
theorem mutation_succeeds (h : Heap) (n : Nat) (vs : List URL) (hn : n = vs.length)
    (i : Nat) (hi : i < n) :
    (∀ u : Ptr, ∃ h2, (ServersMutation.slot i u).apply ⟨some h.urlArrays.length, 0, n, n⟩
        (h.afterServers n vs) = .ok h2) ∧
    (∀ v : URL, ∃ h2, (ServersMutation.element i v).apply ⟨some h.urlArrays.length, 0, n, n⟩
        (h.afterServers n vs) = .ok h2) := by
  subst hn
  constructor
  · intro u
    simp [ServersMutation.apply, Heap.setURLSlice, Heap.afterServers, hi]
  · intro v
    have hidx : (h.afterServers vs.length vs).indexURLSlice
        ⟨some h.urlArrays.length, 0, vs.length, vs.length⟩ i = .ok (some (h.urls.length + i)) := by
      simp [Heap.indexURLSlice, Heap.afterServers, hi, List.getElem?_map, List.getElem?_range]
    simp only [ServersMutation.apply, bind, Except.bind, hidx]
    simp [Heap.storeURL, Heap.afterServers, hi]

/-- C1: on a store at `p` whose endpoint list holds the allocated non-nil
pointers `ps` with values `vs`, `Servers` returns a slice `s`; every in-range
mutation of `s` (a slot replaced, an element overwritten) can be carried out,
and after any such mutation the store is the same record, its list holds the
same pointers and the same values, and `Servers` on any reader over the same
store returns a sequence whose values are the ones the store held before. -/
theorem Servers_result_mutation_not_observable (h : Heap) (r r' : ClientOptionsReader)
    (p : Addr) (o : ClientOptions) (ps : List Addr) (vs : List URL)
    (hr : r.options = some p) (hr' : r'.options = some p)
    (hstore : h.stores[p]? = some o)
    (hsrv : h.urlSliceElems o.Servers = some (ps.map some))
    (hval : ps.map (fun q => h.urls[q]?) = vs.map some) :
    h.endpoints p = some (vs.map some) ∧
    ∃ s h1, Servers r h = .ok (s, h1) ∧
      (∀ i, i < ps.length →
        (∀ u : Ptr, ∃ h2, (ServersMutation.slot i u).apply s h1 = .ok h2) ∧
        (∀ v : URL, ∃ h2, (ServersMutation.element i v).apply s h1 = .ok h2)) ∧
      ∀ (m : ServersMutation) (h2 : Heap), m.apply s h1 = .ok h2 →
        h2.stores[p]? = some o ∧
        h2.urlSliceElems o.Servers = some (ps.map some) ∧
        h2.endpoints p = some (vs.map some) ∧
        ∃ s' h3, Servers r' h2 = .ok (s', h3) ∧ h3.urlSliceValues s' = some (vs.map some) := by
  have hlen := length_eq_of_values h ps vs hval
  refine ⟨by simp [Heap.endpoints, hstore, store_values h o ps vs hsrv hval], _, _,
    Servers_eq h r p o ps vs hr hstore hsrv hval,
    fun i hi => mutation_succeeds h ps.length vs hlen i hi, ?_⟩
  intro m h2 hm
  have he : h.Extends h2 := mutation_extends h h2 ps.length vs m hm
  have hstore2 : h2.stores[p]? = some o := by rw [he.stores]; exact hstore
  have hsrv2 := he.urlSliceElems o.Servers _ hsrv
  have hval2 := he.map_urls ps vs hval
  refine ⟨hstore2, hsrv2, by simp [Heap.endpoints, hstore2, store_values h2 o ps vs hsrv2 hval2],
    _, _, Servers_eq h2 r' p o ps vs hr' hstore2 hsrv2 hval2, ?_⟩
  exact afterServers_values h2 ps.length vs hlen

/-- C1 at the sample heap: three endpoints, read and re-read through two
readers over the store at address 0. -/
theorem Servers_result_mutation_not_observable_witness :
    sampleHeap.endpoints 0 = some ([brokerA, brokerB, brokerC].map some) ∧
    ∃ s h1, Servers (NewOptionsReader (some 0)) sampleHeap = .ok (s, h1) ∧
      (∀ i, i < [0, 1, 2].length →
        (∀ u : Ptr, ∃ h2, (ServersMutation.slot i u).apply s h1 = .ok h2) ∧
        (∀ v : URL, ∃ h2, (ServersMutation.element i v).apply s h1 = .ok h2)) ∧
      ∀ (m : ServersMutation) (h2 : Heap), m.apply s h1 = .ok h2 →
        h2.stores[0]? = some sampleOptions ∧
        h2.urlSliceElems sampleOptions.Servers = some ([0, 1, 2].map some) ∧
        h2.endpoints 0 = some ([brokerA, brokerB, brokerC].map some) ∧
        ∃ s' h3, Servers (NewOptionsReader (some 0)) h2 = .ok (s', h3) ∧
          h3.urlSliceValues s' = some ([brokerA, brokerB, brokerC].map some) :=
  Servers_result_mutation_not_observable sampleHeap (NewOptionsReader (some 0))
    (NewOptionsReader (some 0)) 0 sampleOptions [0, 1, 2] [brokerA, brokerB, brokerC]
    rfl rfl rfl rfl rfl

/-- C3: on a store whose endpoint list holds the `n` allocated non-nil
pointers `ps` with values `vs`, `Servers` returns a slice of length `n` whose
elements `es` are non-nil, lead in order to the values of the store's list,
and are pointers to new objects: the `i`-th returned pointer differs from the
`i`-th stored pointer, both lead to the same value, and the stored object is
as it was. -/
theorem Servers_copies_in_order (h : Heap) (r : ClientOptionsReader)
    (p : Addr) (o : ClientOptions) (ps : List Addr) (vs : List URL)
    (hr : r.options = some p) (hstore : h.stores[p]? = some o)
    (hsrv : h.urlSliceElems o.Servers = some (ps.map some))
    (hval : ps.map (fun q => h.urls[q]?) = vs.map some) :
    ∃ (s : Slice) (h1 : Heap) (es : List Addr), Servers r h = .ok (s, h1) ∧ s.len = ps.length ∧
      h1.urlSliceElems s = some (es.map some) ∧ es.length = ps.length ∧
      h.urlSliceValues o.Servers = some (vs.map some) ∧
      h1.urlSliceValues s = some (vs.map some) ∧
      ∀ i, i < ps.length → ∃ q q' v, ps[i]? = some q ∧ es[i]? = some q' ∧ q' ≠ q ∧
        h.urls.length ≤ q' ∧ h.urls[q]? = some v ∧ h1.urls[q]? = some v ∧
        h1.urls[q']? = some v := by
  have hlen := length_eq_of_values h ps vs hval
  refine ⟨_, _, (List.range ps.length).map (fun j => h.urls.length + j),
    Servers_eq h r p o ps vs hr hstore hsrv hval, rfl, ?_, by simp,
    store_values h o ps vs hsrv hval, afterServers_values h ps.length vs hlen, ?_⟩
  · rw [afterServers_elems]
    simp [List.map_map, Function.comp]
  · intro i hi
    have hi' : i < vs.length := hlen ▸ hi
    have hq : h.urls[ps[i]]? = some vs[i] := by
      have := congrArg (fun l => l[i]?) hval
      simpa [List.getElem?_map, List.getElem?_eq_getElem hi, List.getElem?_eq_getElem hi']
        using this
    have hqlt : ps[i] < h.urls.length := lt_length_of_getElem? hq
    refine ⟨ps[i], h.urls.length + i, vs[i], List.getElem?_eq_getElem hi, ?_, ?_,
      Nat.le_add_right _ _, hq, (afterServers_extends h ps.length vs).urls _ _ hq, ?_⟩
    · simp [List.getElem?_map, List.getElem?_range, hi]
    · exact Nat.ne_of_gt (Nat.lt_of_lt_of_le hqlt (Nat.le_add_right _ _))
    · simp only [Heap.afterServers]
      rw [List.getElem?_append_right (Nat.le_add_right _ _), Nat.add_sub_cancel_left]
      exact List.getElem?_eq_getElem hi'

/-- C3 at the sample heap: the list `[A, B, C]` yields `[A, B, C]`. -/
theorem Servers_copies_in_order_witness :
    ∃ (s : Slice) (h1 : Heap) (es : List Addr), Servers (NewOptionsReader (some 0)) sampleHeap = .ok (s, h1) ∧
      s.len = [0, 1, 2].length ∧
      h1.urlSliceElems s = some (es.map some) ∧ es.length = [0, 1, 2].length ∧
      sampleHeap.urlSliceValues sampleOptions.Servers
        = some ([brokerA, brokerB, brokerC].map some) ∧
      h1.urlSliceValues s = some ([brokerA, brokerB, brokerC].map some) ∧
      ∀ i, i < [0, 1, 2].length → ∃ q q' v, [0, 1, 2][i]? = some q ∧ es[i]? = some q' ∧
        q' ≠ q ∧ sampleHeap.urls.length ≤ q' ∧ sampleHeap.urls[q]? = some v ∧
        h1.urls[q]? = some v ∧ h1.urls[q']? = some v :=
  Servers_copies_in_order sampleHeap (NewOptionsReader (some 0)) 0 sampleOptions [0, 1, 2]
    [brokerA, brokerB, brokerC] rfl rfl rfl rfl

/-! ## The field accessors, `KeepAlive` and `UserParamsGet` -/

theorem loadStore_reader (h : Heap) (r : ClientOptionsReader) (p : Addr) (o : ClientOptions)
    (hr : r.options = some p) (hstore : h.stores[p]? = some o) :
    h.loadStore r.options = .ok o := by
  rw [hr]
  exact loadStore_some h p o hstore

/-- C2 (evaluation of the code): `WillPayload` returns the store's own slice
header, so a byte written through the returned slice is read back by the next
`WillPayload` call: the payload `1, 2, 3` reads `9, 2, 3` after `s[0] = 9`. -/
theorem WillPayload_mutation_observable :
    ∃ s h1, WillPayload (NewOptionsReader (some 0)) sampleHeap = .ok (s, sampleHeap) ∧
      s = sampleOptions.WillPayload ∧
      sampleHeap.byteSliceElems s = some [1, 2, 3] ∧
      sampleHeap.setByteSlice s 0 9 = .ok h1 ∧
      WillPayload (NewOptionsReader (some 0)) h1 = .ok (s, h1) ∧
      h1.byteSliceElems s = some [9, 2, 3] :=
  ⟨⟨some 0, 0, 3, 3⟩, { sampleHeap with byteArrays := [[9, 2, 3]] }, rfl, rfl, rfl, rfl, rfl, rfl⟩

theorem wrapInt64_of_range (x : Int) (hlo : -9223372036854775808 ≤ x)
    (hhi : x < 9223372036854775808) : wrapInt64 x = x := by
  unfold wrapInt64
  norm_num
  omega

/-- C4 (as stated, refuted): for the stored count 9223372037 the `int64`
product wraps and `KeepAlive` returns a negative duration, not 9223372037
seconds. -/
theorem KeepAlive_overflow_counterexample :
    KeepAlive (NewOptionsReader (some 0)) overflowHeap
      = .ok (-9223372036709551616, overflowHeap) ∧
    (-9223372036709551616 : Int) ≠ 9223372037 * 1000000000 :=
  ⟨rfl, by decide⟩

/-- C4 (amended): for a stored count `k` with
`-9223372036 ≤ k ≤ 9223372036`, `KeepAlive` returns exactly
`k * 1000000000` nanoseconds and leaves the heap as it was. -/
theorem KeepAlive_exact_seconds (h : Heap) (r : ClientOptionsReader) (p : Addr)
    (o : ClientOptions) (hr : r.options = some p) (hstore : h.stores[p]? = some o)
    (hlo : -9223372036 ≤ o.KeepAlive) (hhi : o.KeepAlive ≤ 9223372036) :
    KeepAlive r h = .ok (o.KeepAlive * 1000000000, h) := by
  have hw : wrapInt64 (o.KeepAlive * Second) = o.KeepAlive * 1000000000 := by
    unfold Second
    apply wrapInt64_of_range <;> omega
  simp [KeepAlive, loadStore_reader h r p o hr hstore, hw, bind, Except.bind, pure, Except.pure]

/-- C4 at the sample heap: a stored count of 30 reads as exactly 30 seconds. -/
theorem KeepAlive_exact_seconds_witness :
    KeepAlive (NewOptionsReader (some 0)) sampleHeap = .ok (30 * 1000000000, sampleHeap) :=
  KeepAlive_exact_seconds sampleHeap (NewOptionsReader (some 0)) 0 sampleOptions rfl rfl
    (by decide) (by decide)

/-- C5: `UserParamsGet` returns the value the map binds to the key, and the
nil interface, without failing, when the map is nil or has no entry for the
key. -/
theorem UserParamsGet_lookup (h : Heap) (r : ClientOptionsReader) (p : Addr)
    (o : ClientOptions) (key : String) (hr : r.options = some p)
    (hstore : h.stores[p]? = some o) :
    (∀ (entries : List (String × Iface)) (v : Iface), o.UserParams = some entries →
      entries.lookup key = some v → UserParamsGet r key h = .ok (v, h)) ∧
    (o.UserParams = none → UserParamsGet r key h = .ok (Iface.nil, h)) ∧
    (∀ (entries : List (String × Iface)), o.UserParams = some entries →
      (∀ v, (key, v) ∉ entries) → UserParamsGet r key h = .ok (Iface.nil, h)) := by
  have hl := loadStore_reader h r p o hr hstore
  refine ⟨?_, ?_, ?_⟩
  · intro entries v hm hk
    simp [UserParamsGet, hl, mapIndex, hm, hk, bind, Except.bind, pure, Except.pure]
  · intro hm
    simp [UserParamsGet, hl, mapIndex, hm, bind, Except.bind, pure, Except.pure]
  · intro entries hm hk
    have hnone : entries.lookup key = none := by
      rw [List.lookup_eq_none_iff]
      intro a ha
      simp only [bne_iff_ne, ne_eq]
      intro heq
      exact hk a.2 (by rw [heq]; exact ha)
    simp [UserParamsGet, hl, mapIndex, hm, hnone, bind, Except.bind, pure, Except.pure]

/-- C5 at the sample heap: with the map `{"a": 1}`, the key `"a"` reads 1
and the key `"b"` reads the nil interface. -/
theorem UserParamsGet_lookup_witness :
    UserParamsGet (NewOptionsReader (some 0)) "a" sampleHeap
      = .ok (Iface.val (Dyn.int 1), sampleHeap) ∧
    UserParamsGet (NewOptionsReader (some 0)) "b" sampleHeap = .ok (Iface.nil, sampleHeap) :=
  ⟨(UserParamsGet_lookup sampleHeap (NewOptionsReader (some 0)) 0 sampleOptions "a" rfl rfl).1
      [("a", Iface.val (Dyn.int 1))] (Iface.val (Dyn.int 1)) rfl rfl,
   (UserParamsGet_lookup sampleHeap (NewOptionsReader (some 0)) 0 sampleOptions "b" rfl rfl).2.2
      [("a", Iface.val (Dyn.int 1))] rfl (by simp)⟩

/-- C6 (as stated, refuted): with the map `{"a": nil}` the key `"a"` is
present and the key `"b"` is absent, and `UserParamsGet` returns the same
result for both. -/
theorem UserParamsGet_nil_value_counterexample :
    mapIndex (some [("a", Iface.nil)]) "a" = (Iface.nil, true) ∧
    mapIndex (some [("a", Iface.nil)]) "b" = (Iface.nil, false) ∧
    UserParamsGet (NewOptionsReader (some 0)) "a" nilParamHeap = .ok (Iface.nil, nilParamHeap) ∧
    UserParamsGet (NewOptionsReader (some 0)) "a" nilParamHeap
      = UserParamsGet (NewOptionsReader (some 0)) "b" nilParamHeap :=
  ⟨rfl, rfl, rfl, rfl⟩

/-- C6 (amended): when the map binds `k1` to a value other than the nil
interface and has no entry for `k2`, `UserParamsGet` returns the bound value
for `k1`, the nil interface for `k2`, and the two results differ. -/
theorem UserParamsGet_present_differs_from_absent (h : Heap) (r : ClientOptionsReader)
    (p : Addr) (o : ClientOptions) (k1 k2 : String) (hr : r.options = some p)
    (hstore : h.stores[p]? = some o)
    (hpresent : (mapIndex o.UserParams k1).2 = true)
    (hvalue : (mapIndex o.UserParams k1).1 ≠ Iface.nil)
    (habsent : (mapIndex o.UserParams k2).2 = false) :
    UserParamsGet r k1 h = .ok ((mapIndex o.UserParams k1).1, h) ∧
    UserParamsGet r k2 h = .ok (Iface.nil, h) ∧
    UserParamsGet r k1 h ≠ UserParamsGet r k2 h := by
  have hl := loadStore_reader h r p o hr hstore
  have h1 : UserParamsGet r k1 h = .ok ((mapIndex o.UserParams k1).1, h) := by
    simp [UserParamsGet, hl, hpresent, bind, Except.bind, pure, Except.pure]
  have h2 : UserParamsGet r k2 h = .ok (Iface.nil, h) := by
    simp [UserParamsGet, hl, habsent, bind, Except.bind, pure, Except.pure]
  refine ⟨h1, h2, ?_⟩
  rw [h1, h2]
  intro heq
  injection heq with heq
  injection heq with heq _
  exact hvalue heq

/-- C6 (amended) at a store whose map binds `"a"` to a typed nil pointer: the
result for `"a"` differs from the result for the absent key `"b"`. -/
theorem UserParamsGet_present_differs_from_absent_witness :
    UserParamsGet (NewOptionsReader (some 0)) "a" typedNilParamHeap
      = .ok (Iface.val (Dyn.pointer "*T" none), typedNilParamHeap) ∧
    UserParamsGet (NewOptionsReader (some 0)) "b" typedNilParamHeap
      = .ok (Iface.nil, typedNilParamHeap) ∧
    UserParamsGet (NewOptionsReader (some 0)) "a" typedNilParamHeap
      ≠ UserParamsGet (NewOptionsReader (some 0)) "b" typedNilParamHeap :=
  UserParamsGet_present_differs_from_absent typedNilParamHeap (NewOptionsReader (some 0)) 0
    { sampleOptions with UserParams := some [("a", Iface.val (Dyn.pointer "*T" none))] }
    "a" "b" rfl rfl rfl (by decide) rfl

/-- C7: each field accessor returns the value of its store field and leaves
the heap as it was; for `TLSConfig`, `HTTPHeaders` and `WebsocketOptions` the
value is the store's reference itself. -/
theorem field_accessors_return_store_fields (h : Heap) (r : ClientOptionsReader) (p : Addr)
    (o : ClientOptions) (hr : r.options = some p) (hstore : h.stores[p]? = some o) :
    ResumeSubs r h = .ok (o.ResumeSubs, h) ∧
    ClientID r h = .ok (o.ClientID, h) ∧
    Username r h = .ok (o.Username, h) ∧
    Password r h = .ok (o.Password, h) ∧
    CleanSession r h = .ok (o.CleanSession, h) ∧
    Order r h = .ok (o.Order, h) ∧
    WillEnabled r h = .ok (o.WillEnabled, h) ∧
    WillTopic r h = .ok (o.WillTopic, h) ∧
    WillQos r h = .ok (o.WillQos, h) ∧
    WillRetained r h = .ok (o.WillRetained, h) ∧
    ProtocolVersion r h = .ok (o.ProtocolVersion, h) ∧
    TLSConfig r h = .ok (o.TLSConfig, h) ∧
    PingTimeout r h = .ok (o.PingTimeout, h) ∧
    ConnectTimeout r h = .ok (o.ConnectTimeout, h) ∧
    MaxReconnectInterval r h = .ok (o.MaxReconnectInterval, h) ∧
    AutoReconnect r h = .ok (o.AutoReconnect, h) ∧
    ConnectRetryInterval r h = .ok (o.ConnectRetryInterval, h) ∧
    ConnectRetry r h = .ok (o.ConnectRetry, h) ∧
    WriteTimeout r h = .ok (o.WriteTimeout, h) ∧
    MessageChannelDepth r h = .ok (o.MessageChannelDepth, h) ∧
    HTTPHeaders r h = .ok (o.HTTPHeaders, h) ∧
    WebsocketOptions r h = .ok (o.WebsocketOptions, h) := by
  have hl := loadStore_reader h r p o hr hstore
  refine ⟨?_, ?_, ?_, ?_, ?_, ?_, ?_, ?_, ?_, ?_, ?_, ?_, ?_, ?_, ?_, ?_, ?_, ?_, ?_, ?_, ?_, ?_⟩ <;>
    simp [ResumeSubs, ClientID, Username, Password, CleanSession, Order, WillEnabled, WillTopic, WillQos, WillRetained, ProtocolVersion, TLSConfig, PingTimeout, ConnectTimeout, MaxReconnectInterval, AutoReconnect, ConnectRetryInterval, ConnectRetry, WriteTimeout, MessageChannelDepth, HTTPHeaders, WebsocketOptions, hl, bind, Except.bind, pure, Except.pure]

/-- C7 at the sample heap. -/
theorem field_accessors_return_store_fields_witness :
    ResumeSubs (NewOptionsReader (some 0)) sampleHeap = .ok (sampleOptions.ResumeSubs, sampleHeap) ∧
    ClientID (NewOptionsReader (some 0)) sampleHeap = .ok (sampleOptions.ClientID, sampleHeap) ∧
    Username (NewOptionsReader (some 0)) sampleHeap = .ok (sampleOptions.Username, sampleHeap) ∧
    Password (NewOptionsReader (some 0)) sampleHeap = .ok (sampleOptions.Password, sampleHeap) ∧
    CleanSession (NewOptionsReader (some 0)) sampleHeap = .ok (sampleOptions.CleanSession, sampleHeap) ∧
    Order (NewOptionsReader (some 0)) sampleHeap = .ok (sampleOptions.Order, sampleHeap) ∧
    WillEnabled (NewOptionsReader (some 0)) sampleHeap = .ok (sampleOptions.WillEnabled, sampleHeap) ∧
    WillTopic (NewOptionsReader (some 0)) sampleHeap = .ok (sampleOptions.WillTopic, sampleHeap) ∧
    WillQos (NewOptionsReader (some 0)) sampleHeap = .ok (sampleOptions.WillQos, sampleHeap) ∧
    WillRetained (NewOptionsReader (some 0)) sampleHeap = .ok (sampleOptions.WillRetained, sampleHeap) ∧
    ProtocolVersion (NewOptionsReader (some 0)) sampleHeap = .ok (sampleOptions.ProtocolVersion, sampleHeap) ∧
    TLSConfig (NewOptionsReader (some 0)) sampleHeap = .ok (sampleOptions.TLSConfig, sampleHeap) ∧
    PingTimeout (NewOptionsReader (some 0)) sampleHeap = .ok (sampleOptions.PingTimeout, sampleHeap) ∧
    ConnectTimeout (NewOptionsReader (some 0)) sampleHeap = .ok (sampleOptions.ConnectTimeout, sampleHeap) ∧
    MaxReconnectInterval (NewOptionsReader (some 0)) sampleHeap = .ok (sampleOptions.MaxReconnectInterval, sampleHeap) ∧
    AutoReconnect (NewOptionsReader (some 0)) sampleHeap = .ok (sampleOptions.AutoReconnect, sampleHeap) ∧
    ConnectRetryInterval (NewOptionsReader (some 0)) sampleHeap = .ok (sampleOptions.ConnectRetryInterval, sampleHeap) ∧
    ConnectRetry (NewOptionsReader (some 0)) sampleHeap = .ok (sampleOptions.ConnectRetry, sampleHeap) ∧
    WriteTimeout (NewOptionsReader (some 0)) sampleHeap = .ok (sampleOptions.WriteTimeout, sampleHeap) ∧
    MessageChannelDepth (NewOptionsReader (some 0)) sampleHeap = .ok (sampleOptions.MessageChannelDepth, sampleHeap) ∧
    HTTPHeaders (NewOptionsReader (some 0)) sampleHeap = .ok (sampleOptions.HTTPHeaders, sampleHeap) ∧
    WebsocketOptions (NewOptionsReader (some 0)) sampleHeap = .ok (sampleOptions.WebsocketOptions, sampleHeap) :=
  field_accessors_return_store_fields sampleHeap (NewOptionsReader (some 0)) 0 sampleOptions
    rfl rfl

/-! ## Statements about every accessor -/

/-- Whenever an accessor returns, every object of the heap it started from
is as it was. -/
theorem call_extends (a : Accessor) (r : ClientOptionsReader) (h h' : Heap) (v : Value)
    (hcall : a.call r h = .ok (v, h')) : h.Extends h' := by
  cases a with
  | Servers =>
    simp only [Accessor.call, returned] at hcall
    cases hrun : Mqtt.Servers r h with
    | error e => simp [hrun] at hcall
    | ok x =>
      obtain ⟨s, h1⟩ := x
      simp only [hrun] at hcall
      injection hcall with hcall
      injection hcall with _ hh
      subst hh
      exact Servers_extends r h h1 s hrun
  | UserParamsGet key =>
    simp only [Accessor.call, returned, Mqtt.UserParamsGet, bind, Except.bind, pure,
      Except.pure] at hcall
    cases hl : h.loadStore r.options with
    | error e => simp [hl] at hcall
    | ok o =>
      simp only [hl] at hcall
      split at hcall
      · cases hcall
      · rename_i hx
        split at hx
        all_goals
          injection hx with hx
          injection hx with _ hh
          injection hcall with hcall
          injection hcall with _ hh2
          subst hh
          subst hh2
          exact Heap.Extends.refl _
  | _ =>
    simp only [Accessor.call, returned, Mqtt.ResumeSubs, Mqtt.ClientID, Mqtt.Username, Mqtt.Password, Mqtt.CleanSession, Mqtt.Order, Mqtt.WillEnabled, Mqtt.WillTopic, Mqtt.WillPayload, Mqtt.WillQos, Mqtt.WillRetained, Mqtt.ProtocolVersion, Mqtt.TLSConfig, Mqtt.KeepAlive, Mqtt.PingTimeout, Mqtt.ConnectTimeout, Mqtt.MaxReconnectInterval, Mqtt.AutoReconnect, Mqtt.ConnectRetryInterval, Mqtt.ConnectRetry, Mqtt.WriteTimeout, Mqtt.MessageChannelDepth, Mqtt.HTTPHeaders, Mqtt.WebsocketOptions, bind, Except.bind, pure,
      Except.pure] at hcall
    cases hl : h.loadStore r.options with
    | error e => simp [hl] at hcall
    | ok o =>
      simp only [hl] at hcall
      injection hcall with hcall
      injection hcall with _ hh
      subst hh
      exact Heap.Extends.refl _

theorem Heap.Extends.trans {h1 h2 h3 : Heap} (h12 : h1.Extends h2) (h23 : h2.Extends h3) :
    h1.Extends h3 :=
  ⟨h23.stores.trans h12.stores, h23.byteArrays.trans h12.byteArrays,
   fun q v hq => h23.urls q v (h12.urls q v hq),
   fun a arr ha => h23.urlArrays a arr (h12.urlArrays a arr ha)⟩

theorem mapIndex_absent (m : UserParamsMap) (key : String) (hk : (mapIndex m key).2 = false) :
    (mapIndex m key).1 = Iface.nil := by
  unfold mapIndex at hk ⊢
  cases m with
  | none => rfl
  | some entries =>
    cases hl : entries.lookup key with
    | none => simp [hl]
    | some v => simp [hl] at hk

/-- On a present store every accessor but `Servers` returns, leaves the heap
as it was, and its result is the value the store determines. -/
theorem call_of_store (a : Accessor) (hne : a ≠ Accessor.Servers) (h : Heap)
    (r : ClientOptionsReader) (p : Addr) (o : ClientOptions) (hr : r.options = some p)
    (hstore : h.stores[p]? = some o) :
    ∃ v, a.call r h = .ok (v, h) ∧ v.view h = a.ofStore h o := by
  have hl := loadStore_reader h r p o hr hstore
  cases a with
  | Servers => exact absurd rfl hne
  | UserParamsGet key =>
    cases hk : (mapIndex o.UserParams key).2 with
    | true =>
      refine ⟨Value.iface (mapIndex o.UserParams key).1, ?_, rfl⟩
      simp [Accessor.call, returned, Mqtt.UserParamsGet, hl, hk, bind, Except.bind, pure,
        Except.pure]
    | false =>
      refine ⟨Value.iface Iface.nil, ?_, ?_⟩
      · simp [Accessor.call, returned, Mqtt.UserParamsGet, hl, hk, bind, Except.bind, pure,
          Except.pure]
      · simp [Value.view, Accessor.ofStore, mapIndex_absent _ _ hk]
  | _ =>
    simp [Accessor.call, returned, Mqtt.ResumeSubs, Mqtt.ClientID, Mqtt.Username, Mqtt.Password, Mqtt.CleanSession, Mqtt.Order, Mqtt.WillEnabled, Mqtt.WillTopic, Mqtt.WillPayload, Mqtt.WillQos, Mqtt.WillRetained, Mqtt.ProtocolVersion, Mqtt.TLSConfig, Mqtt.KeepAlive, Mqtt.PingTimeout, Mqtt.ConnectTimeout, Mqtt.MaxReconnectInterval, Mqtt.AutoReconnect, Mqtt.ConnectRetryInterval, Mqtt.ConnectRetry, Mqtt.WriteTimeout, Mqtt.MessageChannelDepth, Mqtt.HTTPHeaders, Mqtt.WebsocketOptions, hl, bind, Except.bind, pure, Except.pure,
      Value.view, Accessor.ofStore]

/-- On a present store whose endpoint list holds allocated non-nil pointers,
every accessor returns and its result, read on the heap it leaves, is the
value the store determines. -/
theorem call_spec (a : Accessor) (h : Heap) (r : ClientOptionsReader) (p : Addr)
    (o : ClientOptions) (ps : List Addr) (vs : List URL) (hr : r.options = some p)
    (hstore : h.stores[p]? = some o)
    (hsrv : h.urlSliceElems o.Servers = some (ps.map some))
    (hval : ps.map (fun q => h.urls[q]?) = vs.map some) :
    ∃ v h1, a.call r h = .ok (v, h1) ∧ v.view h1 = a.ofStore h o := by
  by_cases ha : a = Accessor.Servers
  · subst ha
    refine ⟨Value.urls ⟨some h.urlArrays.length, 0, ps.length, ps.length⟩,
      h.afterServers ps.length vs, ?_, ?_⟩
    · simp [Accessor.call, returned, Servers_eq h r p o ps vs hr hstore hsrv hval]
    · simp only [Value.view, Accessor.ofStore]
      rw [afterServers_values h ps.length vs (length_eq_of_values h ps vs hval),
        store_values h o ps vs hsrv hval]
  · obtain ⟨v, hc, hv⟩ := call_of_store a ha h r p o hr hstore
    exact ⟨v, h, hc, hv⟩

/-- The value a store determines is the same on every heap that keeps the
objects the store refers to. -/
theorem ofStore_extends (a : Accessor) (h h' : Heap) (he : h.Extends h') (o : ClientOptions)
    (ps : List Addr) (vs : List URL)
    (hsrv : h.urlSliceElems o.Servers = some (ps.map some))
    (hval : ps.map (fun q => h.urls[q]?) = vs.map some) :
    a.ofStore h' o = a.ofStore h o := by
  cases a with
  | Servers =>
    simp only [Accessor.ofStore]
    rw [store_values h o ps vs hsrv hval,
      store_values h' o ps vs (he.urlSliceElems _ _ hsrv) (he.map_urls ps vs hval)]
  | WillPayload =>
    simp only [Accessor.ofStore, Heap.byteSliceElems, he.byteArrays]
  | _ => rfl

theorem storeStore_eq (h : Heap) (p : Addr) (o o' : ClientOptions)
    (hstore : h.stores[p]? = some o) :
    h.storeStore (some p) o' = .ok ⟨h.stores.set p o', h.urls, h.urlArrays, h.byteArrays⟩ := by
  simp [Heap.storeStore, lt_length_of_getElem? hstore]

/-- The condition under which `Servers` returns, needed of accessor `a` only
when it is `Servers`, carries over to every heap that keeps the objects. -/
theorem servers_condition_extends (a : Accessor) (h h' : Heap) (he : h.Extends h')
    (o : ClientOptions) (ps : List Addr) (vs : List URL)
    (hs : a = Accessor.Servers → h.urlSliceElems o.Servers = some (ps.map some) ∧
      ps.map (fun q => h.urls[q]?) = vs.map some) :
    a = Accessor.Servers → h'.urlSliceElems o.Servers = some (ps.map some) ∧
      ps.map (fun q => h'.urls[q]?) = vs.map some :=
  fun ha => ⟨he.urlSliceElems _ _ (hs ha).1, he.map_urls ps vs (hs ha).2⟩

theorem call_spec_of_condition (a : Accessor) (h : Heap) (r : ClientOptionsReader) (p : Addr)
    (o : ClientOptions) (ps : List Addr) (vs : List URL) (hr : r.options = some p)
    (hstore : h.stores[p]? = some o)
    (hs : a = Accessor.Servers → h.urlSliceElems o.Servers = some (ps.map some) ∧
      ps.map (fun q => h.urls[q]?) = vs.map some) :
    ∃ v h1, a.call r h = .ok (v, h1) ∧ v.view h1 = a.ofStore h o := by
  by_cases ha : a = Accessor.Servers
  · exact call_spec a h r p o ps vs hr hstore (hs ha).1 (hs ha).2
  · obtain ⟨v, hc, hv⟩ := call_of_store a ha h r p o hr hstore
    exact ⟨v, h, hc, hv⟩

theorem ofStore_extends_of_condition (a : Accessor) (h h' : Heap) (he : h.Extends h')
    (o : ClientOptions) (ps : List Addr) (vs : List URL)
    (hs : a = Accessor.Servers → h.urlSliceElems o.Servers = some (ps.map some) ∧
      ps.map (fun q => h.urls[q]?) = vs.map some) :
    a.ofStore h' o = a.ofStore h o := by
  by_cases ha : a = Accessor.Servers
  · exact ofStore_extends a h h' he o ps vs (hs ha).1 (hs ha).2
  · cases a with
    | Servers => exact absurd rfl ha
    | WillPayload => simp only [Accessor.ofStore, Heap.byteSliceElems, he.byteArrays]
    | _ => rfl

/-- C8: two readers built by `NewOptionsReader` over the store at `p`, called
one after the other, both return the value the store's state determines; and
after the owner overwrites the store with `o'`, both return the value the new
state determines. For `Servers` the endpoint lists of `o` and `o'` hold
allocated non-nil pointers; the other accessors need nothing of the store. -/
theorem readers_hold_no_cache (a : Accessor) (h : Heap) (r1 r2 : ClientOptionsReader)
    (p : Addr) (o o' : ClientOptions) (ps ps' : List Addr) (vs vs' : List URL)
    (hr1 : r1 = NewOptionsReader (some p)) (hr2 : r2 = NewOptionsReader (some p))
    (hstore : h.stores[p]? = some o)
    (hs : a = Accessor.Servers → h.urlSliceElems o.Servers = some (ps.map some) ∧
      ps.map (fun q => h.urls[q]?) = vs.map some)
    (hs' : a = Accessor.Servers → h.urlSliceElems o'.Servers = some (ps'.map some) ∧
      ps'.map (fun q => h.urls[q]?) = vs'.map some) :
    ∃ v1 h1 v2 h2, a.call r1 h = .ok (v1, h1) ∧ a.call r2 h1 = .ok (v2, h2) ∧
      v1.view h1 = a.ofStore h o ∧ v2.view h2 = a.ofStore h o ∧
      ∃ hm v3 h3 v4 h4, h2.storeStore (some p) o' = .ok hm ∧ hm.stores[p]? = some o' ∧
        a.call r1 hm = .ok (v3, h3) ∧ a.call r2 h3 = .ok (v4, h4) ∧
        v3.view h3 = a.ofStore hm o' ∧ v4.view h4 = a.ofStore hm o' := by
  have hp1 : r1.options = some p := by rw [hr1]; rfl
  have hp2 : r2.options = some p := by rw [hr2]; rfl
  obtain ⟨v1, h1, hc1, hv1⟩ := call_spec_of_condition a h r1 p o ps vs hp1 hstore hs
  have e1 : h.Extends h1 := call_extends a r1 h h1 v1 hc1
  have hstore1 : h1.stores[p]? = some o := by rw [e1.stores]; exact hstore
  have hs1 := servers_condition_extends a h h1 e1 o ps vs hs
  obtain ⟨v2, h2, hc2, hv2⟩ := call_spec_of_condition a h1 r2 p o ps vs hp2 hstore1 hs1
  have e2 : h1.Extends h2 := call_extends a r2 h1 h2 v2 hc2
  have e02 : h.Extends h2 := e1.trans e2
  have hstore2 : h2.stores[p]? = some o := by rw [e2.stores]; exact hstore1
  refine ⟨v1, h1, v2, h2, hc1, hc2, hv1, ?_, ?_⟩
  · rw [hv2]
    exact ofStore_extends_of_condition a h h1 e1 o ps vs hs
  · have hlt : p < h2.stores.length := lt_length_of_getElem? hstore2
    have hstorem : (⟨h2.stores.set p o', h2.urls, h2.urlArrays, h2.byteArrays⟩ : Heap).stores[p]?
        = some o' := by
      simp [hlt]
    have hsm : a = Accessor.Servers →
        (⟨h2.stores.set p o', h2.urls, h2.urlArrays, h2.byteArrays⟩ : Heap).urlSliceElems
          o'.Servers = some (ps'.map some) ∧
        ps'.map
          (fun q => (⟨h2.stores.set p o', h2.urls, h2.urlArrays, h2.byteArrays⟩ : Heap).urls[q]?)
          = vs'.map some :=
      servers_condition_extends a h h2 e02 o' ps' vs' hs'
    obtain ⟨v3, h3, hc3, hv3⟩ := call_spec_of_condition a _ r1 p o' ps' vs' hp1 hstorem hsm
    have e3 := call_extends a r1 _ h3 v3 hc3
    have hstore3 : h3.stores[p]? = some o' := by rw [e3.stores]; exact hstorem
    obtain ⟨v4, h4, hc4, hv4⟩ := call_spec_of_condition a h3 r2 p o' ps' vs' hp2 hstore3
      (servers_condition_extends a _ h3 e3 o' ps' vs' hsm)
    refine ⟨_, v3, h3, v4, h4, storeStore_eq h2 p o o' hstore2, hstorem, hc3, hc4, hv3, ?_⟩
    rw [hv4]
    exact ofStore_extends_of_condition a _ h3 e3 o' ps' vs' hsm

/-- C8 at the sample heap, for `KeepAlive` (both readers read 30 seconds, and
60 seconds after the owner changed the count to 60) and for `Servers` (both
read the three endpoints, and the last two after the owner dropped the
first). -/
theorem readers_hold_no_cache_witness :
    (∃ v1 h1 v2 h2,
      Accessor.KeepAlive.call (NewOptionsReader (some 0)) sampleHeap = .ok (v1, h1) ∧
      Accessor.KeepAlive.call (NewOptionsReader (some 0)) h1 = .ok (v2, h2) ∧
      v1.view h1 = Accessor.KeepAlive.ofStore sampleHeap sampleOptions ∧
      v2.view h2 = Accessor.KeepAlive.ofStore sampleHeap sampleOptions ∧
      ∃ hm v3 h3 v4 h4, h2.storeStore (some 0) updatedOptions = .ok hm ∧
        hm.stores[0]? = some updatedOptions ∧
        Accessor.KeepAlive.call (NewOptionsReader (some 0)) hm = .ok (v3, h3) ∧
        Accessor.KeepAlive.call (NewOptionsReader (some 0)) h3 = .ok (v4, h4) ∧
        v3.view h3 = Accessor.KeepAlive.ofStore hm updatedOptions ∧
        v4.view h4 = Accessor.KeepAlive.ofStore hm updatedOptions) ∧
    (∃ v1 h1 v2 h2,
      Accessor.Servers.call (NewOptionsReader (some 0)) sampleHeap = .ok (v1, h1) ∧
      Accessor.Servers.call (NewOptionsReader (some 0)) h1 = .ok (v2, h2) ∧
      v1.view h1 = Accessor.Servers.ofStore sampleHeap sampleOptions ∧
      v2.view h2 = Accessor.Servers.ofStore sampleHeap sampleOptions ∧
      ∃ hm v3 h3 v4 h4, h2.storeStore (some 0) updatedOptions = .ok hm ∧
        hm.stores[0]? = some updatedOptions ∧
        Accessor.Servers.call (NewOptionsReader (some 0)) hm = .ok (v3, h3) ∧
        Accessor.Servers.call (NewOptionsReader (some 0)) h3 = .ok (v4, h4) ∧
        v3.view h3 = Accessor.Servers.ofStore hm updatedOptions ∧
        v4.view h4 = Accessor.Servers.ofStore hm updatedOptions) :=
  ⟨readers_hold_no_cache Accessor.KeepAlive sampleHeap (NewOptionsReader (some 0))
      (NewOptionsReader (some 0)) 0 sampleOptions updatedOptions [] [] [] [] rfl rfl rfl
      (fun hne => by cases hne) (fun hne => by cases hne),
   readers_hold_no_cache Accessor.Servers sampleHeap (NewOptionsReader (some 0))
      (NewOptionsReader (some 0)) 0 sampleOptions updatedOptions [0, 1, 2] [1, 2]
      [brokerA, brokerB, brokerC] [brokerB, brokerC] rfl rfl rfl
      (fun _ => ⟨rfl, rfl⟩) (fun _ => ⟨rfl, rfl⟩)⟩

/-- C9: `NewOptionsReader` returns a reader that refers to the store it was
given, and whenever an accessor of that reader returns, the stores and every
object of the heap the call started from are as they were. -/
theorem reader_is_pure_read_access (o : Ptr) (a : Accessor) (h h' : Heap) (v : Value)
    (hcall : a.call (NewOptionsReader o) h = .ok (v, h')) :
    (NewOptionsReader o).options = o ∧ h'.stores = h.stores ∧ h.Extends h' :=
  ⟨rfl, (call_extends a _ h h' v hcall).stores, call_extends a _ h h' v hcall⟩

/-- C9 at the sample heap for `Servers`, the one accessor that allocates. -/
theorem reader_is_pure_read_access_witness :
    Accessor.Servers.call (NewOptionsReader (some 0)) sampleHeap
      = .ok (Value.urls ⟨some 1, 0, 3, 3⟩, sampleHeap.afterServers 3 [brokerA, brokerB, brokerC]) ∧
    (NewOptionsReader (some 0)).options = some 0 ∧
    (sampleHeap.afterServers 3 [brokerA, brokerB, brokerC]).stores = sampleHeap.stores ∧
    sampleHeap.Extends (sampleHeap.afterServers 3 [brokerA, brokerB, brokerC]) :=
  ⟨rfl, reader_is_pure_read_access (some 0) Accessor.Servers sampleHeap
    (sampleHeap.afterServers 3 [brokerA, brokerB, brokerC]) (Value.urls ⟨some 1, 0, 3, 3⟩) rfl⟩

/-- C10 (as stated, refuted): on a present store whose endpoint list holds a
nil pointer in its second slot, `Servers` panics with a nil dereference. -/
theorem Servers_nil_element_counterexample :
    nilEndpointHeap.stores[0]? = some sampleOptions ∧
    nilEndpointHeap.urlSliceElems sampleOptions.Servers = some [some 0, none, some 2] ∧
    Servers (NewOptionsReader (some 0)) nilEndpointHeap = .error Panic.nilDereference :=
  ⟨rfl, rfl, rfl⟩

/-- C10 (amended): on a present store every accessor other than `Servers`
returns a value whatever the store's fields hold, and `Servers` returns a
value when the endpoint list holds allocated non-nil pointers. -/
theorem accessors_return_on_present_store (a : Accessor) (h : Heap)
    (r : ClientOptionsReader) (p : Addr) (o : ClientOptions) (hr : r.options = some p)
    (hstore : h.stores[p]? = some o)
    (hservers : a = Accessor.Servers → ∃ (ps : List Addr) (vs : List URL),
      h.urlSliceElems o.Servers = some (ps.map some) ∧
      ps.map (fun q => h.urls[q]?) = vs.map some) :
    ∃ v h', a.call r h = .ok (v, h') := by
  by_cases ha : a = Accessor.Servers
  · obtain ⟨ps, vs, hsrv, hval⟩ := hservers ha
    obtain ⟨v, h1, hc, _⟩ := call_spec a h r p o ps vs hr hstore hsrv hval
    exact ⟨v, h1, hc⟩
  · obtain ⟨v, hc, _⟩ := call_of_store a ha h r p o hr hstore
    exact ⟨v, h, hc⟩

/-- C10 (amended) at the heap with a nil endpoint, where `WillPayload`
returns, and at the sample heap, where `Servers` returns. -/
theorem accessors_return_on_present_store_witness :
    (∃ v h', Accessor.WillPayload.call (NewOptionsReader (some 0)) nilEndpointHeap
      = .ok (v, h')) ∧
    (∃ v h', Accessor.Servers.call (NewOptionsReader (some 0)) sampleHeap = .ok (v, h')) :=
  ⟨accessors_return_on_present_store Accessor.WillPayload nilEndpointHeap
      (NewOptionsReader (some 0)) 0 sampleOptions rfl rfl (fun hne => by cases hne),
   accessors_return_on_present_store Accessor.Servers sampleHeap
      (NewOptionsReader (some 0)) 0 sampleOptions rfl rfl
      (fun _ => ⟨[0, 1, 2], [brokerA, brokerB, brokerC], rfl, rfl⟩)⟩

/-! ## The absent store -/

/-- C11: `NewOptionsReader` applied to the nil pointer checks nothing and
returns a reader whose `options` is nil, and every accessor of that reader,
on every heap, panics with a nil dereference: none returns a value. -/
theorem accessors_panic_on_nil_store :
    (NewOptionsReader none).options = none ∧
    ∀ (a : Accessor) (h : Heap),
      a.call (NewOptionsReader none) h = .error Panic.nilDereference := by
  refine ⟨rfl, ?_⟩
  intro a h
  cases a <;> rfl

/-! ## The `int64` product of `KeepAlive` -/

theorem wrapInt64_range (x : Int) :
    -9223372036854775808 ≤ wrapInt64 x ∧ wrapInt64 x < 9223372036854775808 := by
  unfold wrapInt64
  norm_num
  omega

theorem wrapInt64_congruent (x : Int) : (wrapInt64 x - x) % 18446744073709551616 = 0 := by
  unfold wrapInt64
  norm_num
  omega

theorem wrapInt64_eq_iff (x : Int) :
    wrapInt64 x = x ↔ -9223372036854775808 ≤ x ∧ x < 9223372036854775808 := by
  unfold wrapInt64
  norm_num
  omega

/-- C12: `KeepAlive` returns the product of the stored count `k` and
1000000000 wrapped into `int64`: the result lies in `[-2^63, 2^63)`, differs
from `k * 1000000000` by a multiple of `2^64`, and equals `k * 1000000000`
exactly when `-9223372036 ≤ k ≤ 9223372036`. -/
theorem KeepAlive_int64_product (h : Heap) (r : ClientOptionsReader) (p : Addr)
    (o : ClientOptions) (hr : r.options = some p) (hstore : h.stores[p]? = some o) :
    ∃ d : Int, KeepAlive r h = .ok (d, h) ∧
      -9223372036854775808 ≤ d ∧ d < 9223372036854775808 ∧
      (d - o.KeepAlive * 1000000000) % 18446744073709551616 = 0 ∧
      (d = o.KeepAlive * 1000000000 ↔
        -9223372036 ≤ o.KeepAlive ∧ o.KeepAlive ≤ 9223372036) := by
  refine ⟨wrapInt64 (o.KeepAlive * 1000000000), ?_, (wrapInt64_range _).1,
    (wrapInt64_range _).2, wrapInt64_congruent _, ?_⟩
  · simp [KeepAlive, Second, loadStore_reader h r p o hr hstore, bind, Except.bind, pure,
      Except.pure]
  · rw [wrapInt64_eq_iff]
    constructor
    · intro hx
      constructor <;> omega
    · intro hk
      constructor <;> omega

/-- C12 at the store with a count of 9223372037 seconds: the product
overflows and the duration returned is negative. -/
theorem KeepAlive_int64_product_witness :
    KeepAlive (NewOptionsReader (some 0)) overflowHeap
      = .ok (-9223372036709551616, overflowHeap) ∧
    ∃ d : Int, KeepAlive (NewOptionsReader (some 0)) overflowHeap = .ok (d, overflowHeap) ∧
      -9223372036854775808 ≤ d ∧ d < 9223372036854775808 ∧
      (d - 9223372037 * 1000000000) % 18446744073709551616 = 0 ∧
      (d = 9223372037 * 1000000000 ↔
        -9223372036 ≤ (9223372037 : Int) ∧ (9223372037 : Int) ≤ 9223372036) :=
  ⟨rfl, KeepAlive_int64_product overflowHeap (NewOptionsReader (some 0)) 0
    { sampleOptions with KeepAlive := 9223372037 } rfl rfl⟩

/-! ## `Servers` on a list with a nil element -/

/-- The loop of `Servers` stops with a nil dereference at the first nil
element: `pre` are the allocated non-nil pointers before it, `a` is the array
of the store's list and `d` the array the loop writes to. -/
theorem serversLoop_nil_fails (src dst : Slice) (a d : Addr) (arr : List Ptr)
    (hsrc : src.array = some a) (hdst : dst.array = some d) (hne : d ≠ a) :
    ∀ (pre : List Addr) (k i : Nat) (h : Heap),
      pre.length < k → i + k ≤ src.len → i + k ≤ dst.len →
      h.urlArrays[a]? = some arr →
      (∃ X : List Ptr, h.urlArrays[d]? = some X ∧ dst.off + dst.len ≤ X.length) →
      (arr.drop (src.off + i)).take (pre.length + 1) = pre.map some ++ [none] →
      (∀ q ∈ pre, q < h.urls.length) →
      serversLoop src dst k i h = .error Panic.nilDereference := by
  intro pre
  induction pre with
  | nil =>
    intro k i h hk hi _ hA _ harr _
    match k, hk with
    | k + 1, _ =>
      obtain ⟨helem, _⟩ := take_drop_succ arr (src.off + i) 0 none [] (by simpa using harr)
      have hlt : i < src.len := by omega
      simp [serversLoop, Heap.indexURLSlice, hlt, hsrc, hA, helem, Heap.loadURL, bind,
        Except.bind]
  | cons q pre ih =>
    intro k i h hk hi hj hA hX harr hpre
    simp only [List.length_cons] at hk
    match k, hk with
    | k + 1, hk =>
      obtain ⟨helem, hrest⟩ := take_drop_succ arr (src.off + i) (pre.length + 1) (some q)
        (pre.map some ++ [none]) (by simpa using harr)
      have hq : q < h.urls.length := hpre q (List.mem_cons_self q pre)
      obtain ⟨X, hXd, hXlen⟩ := hX
      have hlt : i < src.len := by omega
      have hlt2 : i < dst.len := by omega
      have hlt3 : dst.off + i < X.length := by omega
      have hidx : h.indexURLSlice src i = .ok (some q) := by
        simp [Heap.indexURLSlice, hlt, hsrc, hA, helem]
      have hload : h.loadURL (some q) = .ok h.urls[q] := by
        simp [Heap.loadURL, List.getElem?_eq_getElem hq]
      have hset : Heap.setURLSlice ⟨h.stores, h.urls ++ [h.urls[q]], h.urlArrays, h.byteArrays⟩
          dst i (some h.urls.length)
          = .ok ⟨h.stores, h.urls ++ [h.urls[q]],
              h.urlArrays.set d (X.set (dst.off + i) (some h.urls.length)), h.byteArrays⟩ := by
        simp [Heap.setURLSlice, hlt2, hdst, hXd, hlt3]
      simp only [serversLoop, hidx, hload, Heap.newURL, bind, Except.bind, hset]
      apply ih k (i + 1)
      · omega
      · omega
      · omega
      · simp only [List.getElem?_set_ne hne]
        exact hA
      · refine ⟨X.set (dst.off + i) (some h.urls.length), ?_, by simpa using hXlen⟩
        simp [List.getElem?_set_self (lt_length_of_getElem? hXd)]
      · simpa [Nat.add_assoc] using hrest
      · intro q' hq'
        have := hpre q' (List.mem_cons_of_mem q hq')
        simp only [List.length_append, List.length_singleton]
        exact Nat.lt_succ_of_lt this

/-- A list of pointers with a nil element splits at its first nil element. -/
theorem exists_first_nil : ∀ (es : List Ptr), none ∈ es →
    ∃ (pre : List Addr) (rest : List Ptr), es = pre.map some ++ none :: rest
  | [], hmem => by simp at hmem
  | none :: es, _ => ⟨[], es, rfl⟩
  | some q :: es, hmem => by
    have hmem' : none ∈ es := by simpa using hmem
    obtain ⟨pre, rest, hes⟩ := exists_first_nil es hmem'
    exact ⟨q :: pre, rest, by simp [hes]⟩

/-- A list of allocated pointers without a nil element is a list of
addresses, each leading to a value. -/
theorem all_some_of_no_nil (U : List URL) : ∀ (es : List Ptr), none ∉ es →
    (∀ q : Addr, some q ∈ es → q < U.length) →
    ∃ (ps : List Addr) (vs : List URL), es = ps.map some ∧
      ps.map (fun q => U[q]?) = vs.map some
  | [], _, _ => ⟨[], [], rfl, rfl⟩
  | none :: es, hno, _ => by simp at hno
  | some q :: es, hno, hall => by
    have hno' : none ∉ es := by
      intro hmem
      exact hno (List.mem_cons_of_mem _ hmem)
    obtain ⟨ps, vs, hes, hvs⟩ := all_some_of_no_nil U es hno'
      (fun q' hq' => hall q' (List.mem_cons_of_mem _ hq'))
    have hq : q < U.length := hall q (List.mem_cons_self _ _)
    exact ⟨q :: ps, U[q] :: vs, by simp [hes], by simp [hvs, List.getElem?_eq_getElem hq]⟩

/-- On a present store whose endpoint list holds a nil element, `Servers`
panics with a nil dereference. -/
theorem Servers_nil_dereference (h : Heap) (r : ClientOptionsReader) (p : Addr)
    (o : ClientOptions) (es : List Ptr) (hr : r.options = some p)
    (hstore : h.stores[p]? = some o) (hsrv : h.urlSliceElems o.Servers = some es)
    (halloc : ∀ q : Addr, some q ∈ es → q < h.urls.length) (hnil : none ∈ es) :
    Servers r h = .error Panic.nilDereference := by
  obtain ⟨pre, rest, hes⟩ := exists_first_nil es hnil
  have hload : ∀ A : List (List Ptr),
      Heap.loadStore ⟨h.stores, h.urls, A, h.byteArrays⟩ r.options = .ok o := by
    intro A
    rw [hr]
    exact loadStore_some _ p o hstore
  have hload0 : h.loadStore r.options = .ok o := hload h.urlArrays
  cases harr : o.Servers.array with
  | none =>
    simp only [Heap.urlSliceElems, harr] at hsrv
    split at hsrv
    · have : es = [] := by simpa using hsrv.symm
      subst this
      simp at hnil
    · cases hsrv
  | some a =>
    simp only [Heap.urlSliceElems, harr] at hsrv
    cases hA : h.urlArrays[a]? with
    | none => simp [hA] at hsrv
    | some arr =>
      simp only [hA] at hsrv
      split at hsrv
      · have hsrv1 : (arr.drop o.Servers.off).take o.Servers.len = es := by simpa using hsrv
        have hlen : es.length = o.Servers.len := by
          have := congrArg List.length hsrv1
          simp only [List.length_take, List.length_drop] at this
          omega
        have hpl : pre.length + 1 ≤ o.Servers.len := by
          rw [← hlen, hes]
          simp
        have htake : (arr.drop (o.Servers.off + 0)).take (pre.length + 1)
            = pre.map some ++ [none] := by
          have h1 : (arr.drop o.Servers.off).take (pre.length + 1)
              = ((arr.drop o.Servers.off).take o.Servers.len).take (pre.length + 1) := by
            rw [List.take_take, Nat.min_eq_left hpl]
          show (arr.drop o.Servers.off).take (pre.length + 1) = pre.map some ++ [none]
          rw [h1, hsrv1, hes]
          simp [List.take_append_eq_append_take]
        have ha : a < h.urlArrays.length := lt_length_of_getElem? hA
        have hloop := serversLoop_nil_fails o.Servers
          ⟨some h.urlArrays.length, 0, o.Servers.len, o.Servers.len⟩ a h.urlArrays.length arr
          harr rfl (Nat.ne_of_gt ha) pre o.Servers.len 0
          ⟨h.stores, h.urls, h.urlArrays ++ [List.replicate o.Servers.len none], h.byteArrays⟩
          (by omega) (by omega) (by simp)
          (by simp only [List.getElem?_append_left ha]; exact hA)
          ⟨List.replicate o.Servers.len none, by simp, by simp⟩ htake
          (fun q hq => halloc q (by rw [hes]; simp [hq]))
        simp only [Servers, hload0, Heap.makeURLSlice, hload, bind, Except.bind, hloop]
      · cases hsrv

/-- C13: on a present store whose endpoint list `es` lies in an allocated
array and whose non-nil elements are allocated, `Servers` fails exactly when
`es` holds a nil element, the failure is a nil dereference, and when no
element is nil it returns a slice of the length of `es` over an array that
did not exist before the call, every earlier object being as it was. -/
theorem Servers_fails_iff_nil_element (h : Heap) (r : ClientOptionsReader) (p : Addr)
    (o : ClientOptions) (es : List Ptr) (hr : r.options = some p)
    (hstore : h.stores[p]? = some o) (hsrv : h.urlSliceElems o.Servers = some es)
    (halloc : ∀ q : Addr, some q ∈ es → q < h.urls.length) :
    ((∃ e, Servers r h = .error e) ↔ none ∈ es) ∧
    (none ∈ es → Servers r h = .error Panic.nilDereference) ∧
    (none ∉ es → ∃ (s : Slice) (h1 : Heap) (d : Addr) (X : List Ptr),
      Servers r h = .ok (s, h1) ∧ s.len = es.length ∧ s.array = some d ∧
      h.urlArrays[d]? = none ∧ h1.urlArrays[d]? = some X ∧ X.length = es.length ∧
      h.Extends h1) := by
  have hfail := Servers_nil_dereference h r p o es hr hstore hsrv halloc
  have hok : none ∉ es → ∃ (s : Slice) (h1 : Heap) (d : Addr) (X : List Ptr),
      Servers r h = .ok (s, h1) ∧ s.len = es.length ∧ s.array = some d ∧
      h.urlArrays[d]? = none ∧ h1.urlArrays[d]? = some X ∧ X.length = es.length ∧
      h.Extends h1 := by
    intro hno
    obtain ⟨ps, vs, hes, hval⟩ := all_some_of_no_nil h.urls es hno halloc
    have hrun := Servers_eq h r p o ps vs hr hstore (hes ▸ hsrv) hval
    refine ⟨_, _, h.urlArrays.length,
      (List.range ps.length).map (fun j => some (h.urls.length + j)), hrun, by simp [hes], rfl,
      by simp, by simp [Heap.afterServers], by simp [hes],
      afterServers_extends h ps.length vs⟩
  refine ⟨⟨?_, fun hnil => ⟨_, hfail hnil⟩⟩, hfail, hok⟩
  rintro ⟨e, he⟩
  by_contra hno
  obtain ⟨s, h1, _, _, hrun, _⟩ := hok hno
  rw [hrun] at he
  cases he

/-- C13 at the heap with a nil endpoint, where `Servers` panics, and at the
store with the nil list, where it returns an empty slice over a new array. -/
theorem Servers_fails_iff_nil_element_witness :
    Servers (NewOptionsReader (some 0)) nilEndpointHeap = .error Panic.nilDereference ∧
    ∃ (s : Slice) (h1 : Heap) (d : Addr) (X : List Ptr),
      Servers (NewOptionsReader (some 0)) nilListHeap = .ok (s, h1) ∧
      s.len = ([] : List Ptr).length ∧ s.array = some d ∧
      nilListHeap.urlArrays[d]? = none ∧ h1.urlArrays[d]? = some X ∧
      X.length = ([] : List Ptr).length ∧ nilListHeap.Extends h1 :=
  ⟨(Servers_fails_iff_nil_element nilEndpointHeap (NewOptionsReader (some 0)) 0 sampleOptions
      [some 0, none, some 2] rfl rfl rfl
      (fun q hq => by
        simp only [List.mem_cons, Option.some.injEq, List.mem_singleton] at hq
        rcases hq with hq | hq | hq
        · subst hq; decide
        · cases hq
        · rcases hq with hq | hq
          · subst hq; decide
          · cases hq)).2.1 (by simp),
   (Servers_fails_iff_nil_element nilListHeap (NewOptionsReader (some 0)) 0
      { sampleOptions with Servers := Slice.nil } [] rfl rfl rfl
      (fun q hq => by simp at hq)).2.2 (by simp)⟩

/-! ## The copies made by `Servers` are separate objects -/

/-- The values read through a slice over an array that holds the consecutive
addresses `base, base + 1, ...`. -/
theorem values_of_fresh_slice (g : Heap) (d base n : Nat) (ws : List URL)
    (harr : g.urlArrays[d]? = some ((List.range n).map (fun j => some (base + j))))
    (hn : ws.length = n) (hurls : ∀ j, j < n → g.urls[base + j]? = ws[j]?) :
    g.urlSliceValues ⟨some d, 0, n, n⟩ = some (ws.map some) := by
  subst hn
  have helems : g.urlSliceElems ⟨some d, 0, ws.length, ws.length⟩
      = some ((List.range ws.length).map (fun j => some (base + j))) := by
    simp [Heap.urlSliceElems, harr]
  rw [Heap.urlSliceValues, helems]
  simp only [Option.map_some', List.map_map, Option.some.injEq]
  rw [← range_map_getElem? ws]
  apply List.map_congr_left
  intro j hj
  simpa [Function.comp] using hurls j (List.mem_range.mp hj)

/-- Overwriting element `i` of a slice over the consecutive new addresses
`b, b + 1, ...` changes the value at position `i` of that slice and nothing
else: the arrays are the same, a slice over other consecutive addresses
`b', b' + 1, ...` reads the same values, and the objects of the earlier heap
`h` are as they were. -/
theorem element_mutation_effect (h g : Heap) (he : h.Extends g) (d d' b b' n i : Nat)
    (v : URL) (vs : List URL)
    (hd : g.urlArrays[d]? = some ((List.range n).map (fun j => some (b + j))))
    (hd' : g.urlArrays[d']? = some ((List.range n).map (fun j => some (b' + j))))
    (hn : vs.length = n) (hb : ∀ j, j < n → g.urls[b + j]? = vs[j]?)
    (hb' : ∀ j, j < n → g.urls[b' + j]? = vs[j]?)
    (hdisj : b + n ≤ b' ∨ b' + n ≤ b) (hfresh : h.urls.length ≤ b) (hi : i < n) :
    ∃ h3, (ServersMutation.element i v).apply ⟨some d, 0, n, n⟩ g = .ok h3 ∧
      h3.urlArrays = g.urlArrays ∧
      h3.urlSliceValues ⟨some d, 0, n, n⟩ = some ((vs.set i v).map some) ∧
      h3.urlSliceValues ⟨some d', 0, n, n⟩ = some (vs.map some) ∧
      h.Extends h3 := by
  have hiv : i < vs.length := hn ▸ hi
  have hbi : g.urls[b + i]? = some vs[i] := by
    rw [hb i hi]
    exact List.getElem?_eq_getElem hiv
  have hlt : b + i < g.urls.length := lt_length_of_getElem? hbi
  have hidx : g.indexURLSlice ⟨some d, 0, n, n⟩ i = .ok (some (b + i)) := by
    simp [Heap.indexURLSlice, hi, hd, List.getElem?_map, List.getElem?_range]
  have hstore : g.storeURL (some (b + i)) v
      = .ok ⟨g.stores, g.urls.set (b + i) v, g.urlArrays, g.byteArrays⟩ := by
    simp [Heap.storeURL, hlt]
  refine ⟨⟨g.stores, g.urls.set (b + i) v, g.urlArrays, g.byteArrays⟩, ?_, rfl, ?_, ?_, ?_⟩
  · simp only [ServersMutation.apply, bind, Except.bind, hidx]
    exact hstore
  · apply values_of_fresh_slice ⟨g.stores, g.urls.set (b + i) v, g.urlArrays, g.byteArrays⟩
      d b n (vs.set i v) hd (by simpa using hn)
    intro j hj
    by_cases hji : j = i
    · subst hji
      simp [List.getElem?_set_self hlt, List.getElem?_set_self hiv]
    · have hne : b + i ≠ b + j := by omega
      have hne' : i ≠ j := fun hc => hji hc.symm
      simp only [List.getElem?_set_ne hne, List.getElem?_set_ne hne']
      exact hb j hj
  · apply values_of_fresh_slice ⟨g.stores, g.urls.set (b + i) v, g.urlArrays, g.byteArrays⟩
      d' b' n vs hd' hn
    intro j hj
    have hne : b + i ≠ b' + j := by omega
    simp only [List.getElem?_set_ne hne]
    exact hb' j hj
  · exact storeURL_extends he (b + i) (Nat.le_trans hfresh (Nat.le_add_right _ _)) v hstore

theorem fresh_slice_elems (g : Heap) (d base n : Nat)
    (harr : g.urlArrays[d]? = some ((List.range n).map (fun j => some (base + j)))) :
    g.urlSliceElems ⟨some d, 0, n, n⟩
      = some ((List.range n).map (fun j => some (base + j))) := by
  simp [Heap.urlSliceElems, harr]

theorem afterServers_new_array (g : Heap) (n : Nat) (vs : List URL) :
    (g.afterServers n vs).urlArrays[g.urlArrays.length]?
      = some ((List.range n).map (fun j => some (g.urls.length + j))) := by
  simp [Heap.afterServers]

theorem afterServers_new_url (g : Heap) (n : Nat) (vs : List URL) (j : Nat) :
    (g.afterServers n vs).urls[g.urls.length + j]? = vs[j]? := by
  simp only [Heap.afterServers]
  rw [List.getElem?_append_right (Nat.le_add_right _ _), Nat.add_sub_cancel_left]

/-- After a mutation that keeps the objects of `h`, `Servers` on a reader
over the store returns the values the store held in `h`. -/
theorem Servers_after_extension (h h3 : Heap) (he : h.Extends h3) (r : ClientOptionsReader)
    (p : Addr) (o : ClientOptions) (ps : List Addr) (vs : List URL)
    (hr : r.options = some p) (hstore : h.stores[p]? = some o)
    (hsrv : h.urlSliceElems o.Servers = some (ps.map some))
    (hval : ps.map (fun q => h.urls[q]?) = vs.map some) :
    ∃ s3 h4, Servers r h3 = .ok (s3, h4) ∧ h4.urlSliceValues s3 = some (vs.map some) := by
  have hstore3 : h3.stores[p]? = some o := by rw [he.stores]; exact hstore
  exact ⟨_, _, Servers_eq h3 r p o ps vs hr hstore3 (he.urlSliceElems _ _ hsrv)
    (he.map_urls ps vs hval),
    afterServers_values h3 ps.length vs (length_eq_of_values h ps vs hval)⟩

/-- C14: two calls of `Servers` on a store whose endpoint list holds the
allocated non-nil pointers `ps` (equal pointers allowed) return slices whose
elements `es1` and `es2` are pairwise distinct addresses, within a result and
across the two results. Overwriting element `i` of either result changes the
value at position `i` of that result only: its other positions, the other
result and the result of a later call read the values of the store's list. -/
theorem Servers_elements_are_fresh_copies (h : Heap) (r r' : ClientOptionsReader)
    (p : Addr) (o : ClientOptions) (ps : List Addr) (vs : List URL)
    (hr : r.options = some p) (hr' : r'.options = some p)
    (hstore : h.stores[p]? = some o)
    (hsrv : h.urlSliceElems o.Servers = some (ps.map some))
    (hval : ps.map (fun q => h.urls[q]?) = vs.map some) :
    ∃ (s1 : Slice) (h1 : Heap) (s2 : Slice) (h2 : Heap) (es1 es2 : List Addr),
      Servers r h = .ok (s1, h1) ∧ Servers r' h1 = .ok (s2, h2) ∧
      h2.urlSliceElems s1 = some (es1.map some) ∧
      h2.urlSliceElems s2 = some (es2.map some) ∧
      es1.length = ps.length ∧ es2.length = ps.length ∧ (es1 ++ es2).Nodup ∧
      h2.urlSliceValues s1 = some (vs.map some) ∧
      h2.urlSliceValues s2 = some (vs.map some) ∧
      ∀ (i : Nat) (v : URL), i < ps.length →
        (∃ h3, (ServersMutation.element i v).apply s1 h2 = .ok h3 ∧
          h3.urlArrays = h2.urlArrays ∧
          h3.urlSliceValues s1 = some ((vs.set i v).map some) ∧
          h3.urlSliceValues s2 = some (vs.map some) ∧
          ∃ s3 h4, Servers r h3 = .ok (s3, h4) ∧
            h4.urlSliceValues s3 = some (vs.map some)) ∧
        (∃ h3, (ServersMutation.element i v).apply s2 h2 = .ok h3 ∧
          h3.urlArrays = h2.urlArrays ∧
          h3.urlSliceValues s2 = some ((vs.set i v).map some) ∧
          h3.urlSliceValues s1 = some (vs.map some) ∧
          ∃ s3 h4, Servers r h3 = .ok (s3, h4) ∧
            h4.urlSliceValues s3 = some (vs.map some)) := by
  have hlen := length_eq_of_values h ps vs hval
  have e1 : h.Extends (h.afterServers ps.length vs) := afterServers_extends h ps.length vs
  have hstore1 : (h.afterServers ps.length vs).stores[p]? = some o := hstore
  have hrun1 := Servers_eq h r p o ps vs hr hstore hsrv hval
  have hrun2 := Servers_eq (h.afterServers ps.length vs) r' p o ps vs hr' hstore1
    (e1.urlSliceElems _ _ hsrv) (e1.map_urls ps vs hval)
  have e2 : (h.afterServers ps.length vs).Extends
      ((h.afterServers ps.length vs).afterServers ps.length vs) :=
    afterServers_extends _ ps.length vs
  have e02 := e1.trans e2
  have hA1 : (h.afterServers ps.length vs).urlArrays.length = h.urlArrays.length + 1 := by
    simp [Heap.afterServers]
  have hU1 : (h.afterServers ps.length vs).urls.length = h.urls.length + ps.length := by
    simp [Heap.afterServers, hlen]
  have hd : ((h.afterServers ps.length vs).afterServers ps.length vs).urlArrays[
      h.urlArrays.length]?
      = some ((List.range ps.length).map (fun j => some (h.urls.length + j))) :=
    e2.urlArrays _ _ (afterServers_new_array h ps.length vs)
  have hd' : ((h.afterServers ps.length vs).afterServers ps.length vs).urlArrays[
      (h.afterServers ps.length vs).urlArrays.length]?
      = some ((List.range ps.length).map
          (fun j => some ((h.afterServers ps.length vs).urls.length + j))) :=
    afterServers_new_array (h.afterServers ps.length vs) ps.length vs
  have hb : ∀ j, j < ps.length →
      ((h.afterServers ps.length vs).afterServers ps.length vs).urls[h.urls.length + j]?
        = vs[j]? := by
    intro j hj
    have hjv : j < vs.length := hlen ▸ hj
    rw [List.getElem?_eq_getElem hjv]
    apply e2.urls
    rw [afterServers_new_url h ps.length vs j]
    exact List.getElem?_eq_getElem hjv
  have hb' : ∀ j, j < ps.length →
      ((h.afterServers ps.length vs).afterServers ps.length vs).urls[
        (h.afterServers ps.length vs).urls.length + j]? = vs[j]? := by
    intro j _
    exact afterServers_new_url (h.afterServers ps.length vs) ps.length vs j
  refine ⟨_, _, _, _, (List.range ps.length).map (fun j => h.urls.length + j),
    (List.range ps.length).map (fun j => (h.afterServers ps.length vs).urls.length + j),
    hrun1, hrun2, ?_, ?_, by simp, by simp, ?_,
    values_of_fresh_slice _ _ _ _ vs hd hlen.symm hb,
    values_of_fresh_slice _ _ _ _ vs hd' hlen.symm hb', ?_⟩
  · rw [fresh_slice_elems _ _ _ _ hd, List.map_map]
    rfl
  · rw [fresh_slice_elems _ _ _ _ hd', List.map_map]
    rfl
  · rw [List.nodup_append]
    refine ⟨(List.nodup_range _).map (fun x y hxy => by simpa using hxy),
      (List.nodup_range _).map (fun x y hxy => by simpa using hxy), ?_⟩
    intro a ha ha'
    simp only [List.mem_map, List.mem_range] at ha ha'
    obtain ⟨j, hj, hja⟩ := ha
    obtain ⟨j', _, hja'⟩ := ha'
    rw [hU1] at hja'
    have : h.urls.length + j = h.urls.length + ps.length + j' := hja.trans hja'.symm
    omega
  · intro i v hi
    constructor
    · obtain ⟨h3, hm, harrs, hv1, hv2, he3⟩ := element_mutation_effect h _ e02
        h.urlArrays.length (h.afterServers ps.length vs).urlArrays.length h.urls.length
        (h.afterServers ps.length vs).urls.length ps.length i v vs hd hd' hlen.symm hb hb'
        (Or.inl (by rw [hU1])) (Nat.le_refl _) hi
      exact ⟨h3, hm, harrs, hv1, hv2,
        Servers_after_extension h h3 he3 r p o ps vs hr hstore hsrv hval⟩
    · obtain ⟨h3, hm, harrs, hv1, hv2, he3⟩ := element_mutation_effect h _ e02
        (h.afterServers ps.length vs).urlArrays.length h.urlArrays.length
        (h.afterServers ps.length vs).urls.length h.urls.length ps.length i v vs hd' hd
        hlen.symm hb' hb (Or.inr (by rw [hU1])) (by rw [hU1]; exact Nat.le_add_right _ _) hi
      exact ⟨h3, hm, harrs, hv1, hv2,
        Servers_after_extension h h3 he3 r p o ps vs hr hstore hsrv hval⟩

/-- C14 at the store whose list holds the same pointer in its first two
slots: the copies returned for the two slots are distinct objects. -/
theorem Servers_elements_are_fresh_copies_witness :
    ∃ (s1 : Slice) (h1 : Heap) (s2 : Slice) (h2 : Heap) (es1 es2 : List Addr),
      Servers (NewOptionsReader (some 0)) duplicateHeap = .ok (s1, h1) ∧
      Servers (NewOptionsReader (some 0)) h1 = .ok (s2, h2) ∧
      h2.urlSliceElems s1 = some (es1.map some) ∧
      h2.urlSliceElems s2 = some (es2.map some) ∧
      es1.length = [0, 0, 2].length ∧ es2.length = [0, 0, 2].length ∧ (es1 ++ es2).Nodup ∧
      h2.urlSliceValues s1 = some ([brokerA, brokerA, brokerC].map some) ∧
      h2.urlSliceValues s2 = some ([brokerA, brokerA, brokerC].map some) ∧
      ∀ (i : Nat) (v : URL), i < [0, 0, 2].length →
        (∃ h3, (ServersMutation.element i v).apply s1 h2 = .ok h3 ∧
          h3.urlArrays = h2.urlArrays ∧
          h3.urlSliceValues s1 = some (([brokerA, brokerA, brokerC].set i v).map some) ∧
          h3.urlSliceValues s2 = some ([brokerA, brokerA, brokerC].map some) ∧
          ∃ s3 h4, Servers (NewOptionsReader (some 0)) h3 = .ok (s3, h4) ∧
            h4.urlSliceValues s3 = some ([brokerA, brokerA, brokerC].map some)) ∧
        (∃ h3, (ServersMutation.element i v).apply s2 h2 = .ok h3 ∧
          h3.urlArrays = h2.urlArrays ∧
          h3.urlSliceValues s2 = some (([brokerA, brokerA, brokerC].set i v).map some) ∧
          h3.urlSliceValues s1 = some ([brokerA, brokerA, brokerC].map some) ∧
          ∃ s3 h4, Servers (NewOptionsReader (some 0)) h3 = .ok (s3, h4) ∧
            h4.urlSliceValues s3 = some ([brokerA, brokerA, brokerC].map some)) :=
  Servers_elements_are_fresh_copies duplicateHeap (NewOptionsReader (some 0))
    (NewOptionsReader (some 0)) 0 sampleOptions [0, 0, 2] [brokerA, brokerA, brokerC]
    rfl rfl rfl rfl rfl

end Mqtt
